import Mathlib

/-!
# Verification of the gozz-core annotation engine

A shallow embedding of the `zcore` package (go-zing/gozz-core) in Lean 4.

Go strings are modelled as `List Char` (named `Str` below); Go byte-level
operations on valid UTF-8 strings coincide with the char-level operations
used here for all the ASCII-only constants involved.  Go maps used by the
sources (`Options`, `Imports`, the persisted cache) are modelled as
association lists whose semantics is given by `lookupKV`; Go's in-place map
assignment `m[k] = v` is modelled by `mapSet`, which preserves first-insert
order (Go map iteration order is unspecified, and every map iteration in the
embedded code is order-independent, so this choice is sound).

Definitions are translated from the Go sources under review.  A few small
helpers (`SplitKV`, `SplitKVSlice2Map`, `TrimPrefix`, `Imports.Add`,
`Imports.Which`, `IsGoFile`) are declared in the repository but their
defining file is not part of the reviewed sources; those are modelled from
the specification and from the repository's own tests, and each such
definition is marked `Modelled from the spec:` in its doc comment.
-/

/-- A Go string, modelled as its list of characters. -/
abbrev Str := List Char

namespace ZCore

/-! ## Constants (modify.go) -/

/-- Source: `AnnotationSeparator = ":"`.  The separator is a single
character, so it is modelled as a `Char`. -/
def AnnotationSeparator : Char := ':'

/-- Source: `KeyValueSeparator = "="`. -/
def KeyValueSeparator : Char := '='

/-- Source: ``EscapeAnnotationSeparator = `:` `` (a raw Go string of six
characters: backslash, `u`, `0`, `0`, `3`, `A`). -/
def EscapeAnnotationSeparator : Str := ['\\', 'u', '0', '0', '3', 'A']

/-! ## String helpers

`EscapeAnnot` and `UnescapeAnnot` are `strings.Replace(str, old,
new, -1)` with the fixed two-character pattern `\:` resp. the fixed
six-character pattern `:`; they are embedded as direct structural
recursions performing the same left-to-right, non-rescanning replacement. -/

/-- Source: `EscapeAnnot`: replace every occurrence of `\:` by the
placeholder `:`, scanning left to right without rescanning
replacements, exactly as `strings.Replace(str, old, new, -1)` does. -/
def EscapeAnnot : Str → Str
  | [] => []
  | [c] => [c]
  | c1 :: c2 :: rest =>
    if c1 = '\\' ∧ c2 = ':' then EscapeAnnotationSeparator ++ EscapeAnnot rest
    else c1 :: EscapeAnnot (c2 :: rest)

/-- Source: `UnescapeAnnot`: replace every occurrence of the
placeholder `:` by `:`, scanning left to right. -/
def UnescapeAnnot : Str → Str
  | [] => []
  | [c1] => [c1]
  | [c1, c2] => [c1, c2]
  | [c1, c2, c3] => [c1, c2, c3]
  | [c1, c2, c3, c4] => [c1, c2, c3, c4]
  | [c1, c2, c3, c4, c5] => [c1, c2, c3, c4, c5]
  | c1 :: c2 :: c3 :: c4 :: c5 :: c6 :: rest =>
    if c1 = '\\' ∧ c2 = 'u' ∧ c3 = '0' ∧ c4 = '0' ∧ c5 = '3' ∧ c6 = 'A' then
      ':' :: UnescapeAnnot rest
    else c1 :: UnescapeAnnot (c2 :: c3 :: c4 :: c5 :: c6 :: rest)

/-- Modelled from the spec: `TrimPrefix` is absent from the reviewed
sources; per its test (`TestTrimPrefix`) it returns the string with the
prefix removed together with whether the prefix was present. -/
def TrimPrefix (s p : Str) : Str × Bool :=
  if p.isPrefixOf s then (s.drop p.length, true) else (s, false)

/-- Go's `strings.Split` for a single-character separator: split at every
occurrence of `sep`, separators not kept; the result always has at least
one element and splitting the empty string yields `[[]]`. -/
def splitOnSep (sep : Char) : Str → List Str
  | [] => [[]]
  | c :: rest =>
    if c = sep then [] :: splitOnSep sep rest
    else
      match splitOnSep sep rest with
      | [] => [[c]]
      | s :: ss => (c :: s) :: ss

/-- Modelled from the spec: `SplitKV` is absent from the reviewed sources;
per its test (`TestSplitKV`) it is `strings.SplitN(str, sep, 2)`: the text
before the first separator is the key, everything after it the value, and a
string without the separator is a key with empty value. -/
def SplitKV (sep : Char) (s : Str) : Str × Str :=
  match splitOnSep sep s with
  | [] => (s, [])
  | [_] => (s, [])
  | k :: rest => (k, List.intercalate [sep] rest)

/-! ## Association-list model of Go maps -/

/-- Lookup in an association list: Go `v, ok := m[k]`. -/
def lookupKV : List (Str × Str) → Str → Option Str
  | [], _ => none
  | (k', v) :: m, k => if k' = k then some v else lookupKV m k

/-- Go map assignment `m[k] = v`: overwrite the first binding of `k`,
or append a new binding when `k` is absent. -/
def mapSet : List (Str × Str) → Str → Str → List (Str × Str)
  | [], k, v => [(k, v)]
  | (k', v') :: m, k, v =>
    if k' = k then (k', v) :: m else (k', v') :: mapSet m k v

/-- Modelled from the spec: `SplitKVSlice2Map` is absent from the reviewed
sources.  Per §4.1 of the spec and its test (`TestSplitKVSlice2Map`), each
slice element is split into key and value at the first separator; an
element whose key part is empty is dropped (the test passes `""` and the
resulting map has no entry for it); when a key repeats, the new value is
concatenated onto the stored one with `,`. -/
def SplitKVSlice2Map (slice : List Str) (sep : Char) (m : List (Str × Str)) :
    List (Str × Str) :=
  slice.foldl
    (fun m s =>
      let kv := SplitKV sep s
      if kv.1 = [] then m
      else
        match lookupKV m kv.1 with
        | some exist => mapSet m kv.1 (exist ++ ',' :: kv.2)
        | none => mapSet m kv.1 kv.2)
    m

/-- The extension-options merge at the end of `parseAnnot`: each
extension entry whose key is not yet present is added. -/
def mergeExtOptions (options : List (Str × Str)) (ext : List (Str × Str)) :
    List (Str × Str) :=
  ext.foldl
    (fun os p => if (lookupKV os p.1).isSome then os else os ++ [p]) options

/-! ## parseAnnot (modify.go) -/

/-- Source: `parseAnnotation`.  The raw string is escaped, split on `:`;
the first segment must equal the plugin name and at least `argsCount`
segments must follow; the next `argsCount` segments are the positional
args; the remaining segments are folded into the options map, whose values
are then unescaped; finally the extension options fill in absent keys.
`ok=false` is modelled as `none`.  (`sp` is never empty since Go's
`strings.Split` always returns at least one element; the `[]` case is
unreachable.) -/
def parseAnnot (ann name : Str) (argsCount : Nat)
    (extOptions : List (Str × Str)) : Option (List Str × List (Str × Str)) :=
  match splitOnSep AnnotationSeparator (EscapeAnnot ann) with
  | [] => none
  | s0 :: rest =>
    if s0 = name ∧ argsCount ≤ rest.length then
      let options := SplitKVSlice2Map (rest.drop argsCount) KeyValueSeparator []
      let options := options.map (fun p => (p.1, UnescapeAnnot p.2))
      some (rest.take argsCount, mergeExtOptions options extOptions)
    else none

/-! ## Spec-side reformulation of option parsing (§4.1 of the spec)

The spec describes the option segments declaratively: every segment after
the positional args is a key=value pair (a segment with no `=` being a key
with empty value), and repeated keys concatenate their values with `,` in
first-encounter order.  The following definitions state that description
directly, to be compared with the source-derived fold above. -/

/-- Concatenate further occurrence values onto an initial value with `,`. -/
def concatOcc (e : Str) (vs : List Str) : Str :=
  vs.foldl (fun s w => s ++ ',' :: w) e

/-- Join a list of values with `,` (empty for the empty list). -/
def joinComma : List Str → Str
  | [] => []
  | v :: vs => concatOcc v vs

/-- Each option segment as the key=value pair the spec describes. -/
def specPairs (segs : List Str) : List (Str × Str) :=
  segs.map (SplitKV KeyValueSeparator)

/-- The keys of a pair list in first-encounter order, without repeats. -/
def firstKeys (ps : List (Str × Str)) : List Str :=
  ps.foldl (fun acc p => if p.1 ∈ acc then acc else acc ++ [p.1]) []

/-- All values bound to key `k`, in encounter order. -/
def valuesOf (ps : List (Str × Str)) (k : Str) : List Str :=
  ps.filterMap (fun p => if p.1 = k then some p.2 else none)

/-- The options map the spec describes: one entry per distinct key in
first-encounter order, carrying the `,`-joined occurrence values. -/
def groupPairs (ps : List (Str × Str)) : List (Str × Str) :=
  (firstKeys ps).map (fun k => (k, joinComma (valuesOf ps k)))

/-- The claim's annotation parse, stated from the spec's words (C1 as
written): **every** later segment becomes a key=value pair, including
segments whose key part is empty. -/
def specParseAnnotationClaimed (ann name : Str) (argsCount : Nat)
    (extOptions : List (Str × Str)) : Option (List Str × List (Str × Str)) :=
  match splitOnSep AnnotationSeparator (EscapeAnnot ann) with
  | [] => none
  | s0 :: rest =>
    if s0 = name ∧ argsCount ≤ rest.length then
      let options := groupPairs (specPairs (rest.drop argsCount))
      let options := options.map (fun p => (p.1, UnescapeAnnot p.2))
      some (rest.take argsCount, mergeExtOptions options extOptions)
    else none

/-- Drop the pairs whose key is empty. -/
def dropEmptyKeys : List (Str × Str) → List (Str × Str)
  | [] => []
  | p :: ps => if p.1 = [] then dropEmptyKeys ps else p :: dropEmptyKeys ps

/-- The amended annotation parse: as `specParseAnnotationClaimed`, but a
later segment whose key part (the text before the first `=`) is empty is
dropped rather than retained. -/
def specParseAnnotationAmended (ann name : Str) (argsCount : Nat)
    (extOptions : List (Str × Str)) : Option (List Str × List (Str × Str)) :=
  match splitOnSep AnnotationSeparator (EscapeAnnot ann) with
  | [] => none
  | s0 :: rest =>
    if s0 = name ∧ argsCount ≤ rest.length then
      let options := groupPairs (dropEmptyKeys (specPairs (rest.drop argsCount)))
      let options := options.map (fun p => (p.1, UnescapeAnnot p.2))
      some (rest.take argsCount, mergeExtOptions options extOptions)
    else none

/-! ## Lookup lemmas for the association-list model -/

theorem lookupKV_nil (k : Str) : lookupKV [] k = none := rfl

theorem lookupKV_cons (k' v : Str) (m : List (Str × Str)) (k : Str) :
    lookupKV ((k', v) :: m) k = if k' = k then some v else lookupKV m k := rfl

theorem lookupKV_append (a b : List (Str × Str)) (k : Str) :
    lookupKV (a ++ b) k =
      match lookupKV a k with
      | some v => some v
      | none => lookupKV b k := by
  induction a with
  | nil => simp [lookupKV]
  | cons p m ih =>
    obtain ⟨k', v⟩ := p
    by_cases h : k' = k <;> simp [lookupKV, h, ih]

theorem lookupKV_mapSet_self (m : List (Str × Str)) (k v : Str) :
    lookupKV (mapSet m k v) k = some v := by
  induction m with
  | nil => simp [mapSet, lookupKV]
  | cons p m ih =>
    obtain ⟨k', v'⟩ := p
    by_cases h : k' = k <;> simp [mapSet, lookupKV, h, ih]

theorem lookupKV_mapSet_ne (m : List (Str × Str)) (k' v k : Str) (h : k' ≠ k) :
    lookupKV (mapSet m k' v) k = lookupKV m k := by
  induction m with
  | nil => simp [mapSet, lookupKV, h]
  | cons p m ih =>
    obtain ⟨k₀, v₀⟩ := p
    by_cases h0 : k₀ = k'
    · subst h0; simp [mapSet, lookupKV, h]
    · simp [mapSet, lookupKV, h0, ih]

theorem lookupKV_mapValues (f : Str → Str) (m : List (Str × Str)) (k : Str) :
    lookupKV (m.map (fun p => (p.1, f p.2))) k = (lookupKV m k).map f := by
  induction m with
  | nil => simp [lookupKV]
  | cons p m ih =>
    obtain ⟨k', v⟩ := p
    by_cases h : k' = k <;> simp [lookupKV, h, ih]

/-- Lookup in a graph-style list built by mapping keys to values. -/
theorem lookupKV_map_graph (ks : List Str) (g : Str → Str) (k : Str) :
    lookupKV (ks.map (fun x => (x, g x))) k =
      if k ∈ ks then some (g k) else none := by
  induction ks with
  | nil => simp [lookupKV]
  | cons x ks ih =>
    by_cases h : x = k
    · subst h; simp [lookupKV]
    · simp [lookupKV, h, ih, Ne.symm h]

/-! ## The fold of `SplitKVSlice2Map` versus the spec's grouped description -/

theorem SplitKVSlice2Map_nil (sep : Char) (m : List (Str × Str)) :
    SplitKVSlice2Map [] sep m = m := rfl

theorem SplitKVSlice2Map_cons (s : Str) (segs : List Str) (sep : Char)
    (m : List (Str × Str)) :
    SplitKVSlice2Map (s :: segs) sep m =
      SplitKVSlice2Map segs sep
        (if (SplitKV sep s).1 = [] then m
         else
           match lookupKV m (SplitKV sep s).1 with
           | some exist => mapSet m (SplitKV sep s).1 (exist ++ ',' :: (SplitKV sep s).2)
           | none => mapSet m (SplitKV sep s).1 (SplitKV sep s).2) := rfl

theorem concatOcc_cons (e v : Str) (vs : List Str) :
    concatOcc e (v :: vs) = concatOcc (e ++ ',' :: v) vs := rfl

theorem valuesOf_nil (k : Str) : valuesOf [] k = [] := rfl

theorem valuesOf_cons (k' v : Str) (ps : List (Str × Str)) (k : Str) :
    valuesOf ((k', v) :: ps) k =
      if k' = k then v :: valuesOf ps k else valuesOf ps k := by
  by_cases h : k' = k <;> simp [valuesOf, h]

theorem valuesOf_eq_nil_iff (ps : List (Str × Str)) (k : Str) :
    valuesOf ps k = [] ↔ k ∉ ps.map Prod.fst := by
  induction ps with
  | nil => simp [valuesOf]
  | cons p ps ih =>
    obtain ⟨k', v⟩ := p
    by_cases h : k' = k <;> simp [valuesOf_cons, h, ih, Ne.symm]

theorem valuesOf_dropEmptyKeys (ps : List (Str × Str)) (k : Str) (hk : k ≠ []) :
    valuesOf (dropEmptyKeys ps) k = valuesOf ps k := by
  induction ps with
  | nil => rfl
  | cons p ps ih =>
    obtain ⟨k', v⟩ := p
    by_cases hnil : k' = []
    · have hne : k' ≠ k := fun h => hk (h ▸ hnil)
      rw [dropEmptyKeys, if_pos hnil, valuesOf_cons, if_neg hne, ih]
    · rw [dropEmptyKeys, if_neg hnil, valuesOf_cons, valuesOf_cons]
      by_cases h : k' = k
      · rw [if_pos h, if_pos h, ih]
      · rw [if_neg h, if_neg h, ih]

theorem mem_firstKeys_aux (ps : List (Str × Str)) (acc : List Str) (k : Str) :
    (k ∈ ps.foldl (fun acc p => if p.1 ∈ acc then acc else acc ++ [p.1]) acc) ↔
      k ∈ acc ∨ k ∈ ps.map Prod.fst := by
  induction ps generalizing acc with
  | nil => simp
  | cons p ps ih =>
    by_cases h : p.1 ∈ acc
    · simp only [List.foldl_cons, if_pos h, ih, List.map_cons, List.mem_cons]
      constructor
      · rintro (ha | hp); · exact Or.inl ha
        · exact Or.inr (Or.inr hp)
      · rintro (ha | rfl | hp)
        · exact Or.inl ha
        · exact Or.inl h
        · exact Or.inr hp
    · simp only [List.foldl_cons, if_neg h, ih, List.map_cons, List.mem_cons,
        List.mem_append, List.mem_singleton]
      tauto

theorem mem_firstKeys (ps : List (Str × Str)) (k : Str) :
    k ∈ firstKeys ps ↔ k ∈ ps.map Prod.fst := by
  simpa using mem_firstKeys_aux ps [] k

theorem lookupKV_groupPairs (ps : List (Str × Str)) (k : Str) :
    lookupKV (groupPairs ps) k =
      match valuesOf ps k with
      | [] => none
      | v :: vs => some (concatOcc v vs) := by
  show lookupKV ((firstKeys ps).map (fun x => (x, joinComma (valuesOf ps x)))) k = _
  rw [lookupKV_map_graph]
  rcases hv : valuesOf ps k with _ | ⟨v, vs⟩
  · rw [if_neg
      (fun hmem => (valuesOf_eq_nil_iff ps k).mp hv ((mem_firstKeys ps k).mp hmem))]
  · have hmem : k ∈ firstKeys ps := by
      rw [mem_firstKeys]
      by_contra hc
      rw [(valuesOf_eq_nil_iff ps k).mpr hc] at hv
      exact List.noConfusion hv
    rw [if_pos hmem]
    rfl

/-- Pointwise description of the fold in `SplitKVSlice2Map`: for a nonempty
key `k`, the resulting binding is the accumulator's binding extended by all
occurrence values of `k` among the segments, joined with `,`. -/
theorem lookupKV_SplitKVSlice2Map (segs : List Str) (acc : List (Str × Str))
    (k : Str) (hk : k ≠ []) :
    lookupKV (SplitKVSlice2Map segs KeyValueSeparator acc) k =
      match lookupKV acc k with
      | some e => some (concatOcc e (valuesOf (specPairs segs) k))
      | none =>
        match valuesOf (specPairs segs) k with
        | [] => none
        | v :: vs => some (concatOcc v vs) := by
  induction segs generalizing acc with
  | nil =>
    rw [SplitKVSlice2Map_nil]
    cases lookupKV acc k <;> simp [specPairs, valuesOf, concatOcc]
  | cons s segs ih =>
    rw [SplitKVSlice2Map_cons]
    rcases hp : SplitKV KeyValueSeparator s with ⟨k', v'⟩
    dsimp only
    have hps : specPairs (s :: segs) = (k', v') :: specPairs segs := by
      simp [specPairs, hp]
    rw [hps, valuesOf_cons]
    by_cases hnil : k' = []
    · have hne : k' ≠ k := fun h => hk (h ▸ hnil)
      rw [if_pos hnil, if_neg hne, ih acc]
    · rw [if_neg hnil]
      by_cases heq : k' = k
      · subst heq
        rw [if_pos rfl]
        cases hl : lookupKV acc k'
        · rw [ih, lookupKV_mapSet_self]
        · rw [ih, lookupKV_mapSet_self]
          rfl
      · rw [if_neg heq]
        cases hl : lookupKV acc k' <;>
          rw [ih, lookupKV_mapSet_ne _ _ _ _ heq]

/-- Pointwise description of the extension-options merge: a key already
present keeps its parsed value; an absent key receives its (first)
extension value. -/
theorem lookupKV_mergeExtOptions (os ext : List (Str × Str)) (k : Str) :
    lookupKV (mergeExtOptions os ext) k =
      match lookupKV os k with
      | some v => some v
      | none => lookupKV ext k := by
  induction ext generalizing os with
  | nil =>
    rcases h : lookupKV os k with _ | v <;> simp [mergeExtOptions, h, lookupKV]
  | cons p ext ih =>
    obtain ⟨k', v'⟩ := p
    have hstep : mergeExtOptions os ((k', v') :: ext) =
        mergeExtOptions
          (if (lookupKV os k').isSome then os else os ++ [(k', v')]) ext := rfl
    rw [hstep]
    by_cases hos : (lookupKV os k').isSome
    · rw [if_pos hos, ih]
      cases hl : lookupKV os k
      · by_cases hkk : k' = k
        · subst hkk
          rw [hl] at hos
          exact absurd hos (by simp)
        · simp [lookupKV, hkk]
      · rfl
    · rw [if_neg hos, ih, lookupKV_append]
      cases hl : lookupKV os k
      · by_cases hkk : k' = k
        · subst hkk
          simp [lookupKV]
        · simp [lookupKV, hkk]
      · rfl

theorem lookupKV_SplitKVSlice2Map_nilkey (segs : List Str) (sep : Char)
    (acc : List (Str × Str)) :
    lookupKV (SplitKVSlice2Map segs sep acc) [] = lookupKV acc [] := by
  induction segs generalizing acc with
  | nil => rfl
  | cons s segs ih =>
    rw [SplitKVSlice2Map_cons]
    by_cases hnil : (SplitKV sep s).1 = []
    · rw [if_pos hnil, ih]
    · rw [if_neg hnil]
      cases lookupKV acc (SplitKV sep s).1 <;>
        rw [ih, lookupKV_mapSet_ne _ _ _ _ hnil]

theorem valuesOf_dropEmptyKeys_nilkey (ps : List (Str × Str)) :
    valuesOf (dropEmptyKeys ps) [] = [] := by
  induction ps with
  | nil => rfl
  | cons p ps ih =>
    obtain ⟨k', v⟩ := p
    by_cases hnil : k' = []
    · rw [dropEmptyKeys, if_pos hnil, ih]
    · rw [dropEmptyKeys, if_neg hnil, valuesOf_cons, if_neg hnil, ih]

/-- The source's options fold agrees pointwise with the spec's grouped
description once empty-key segments are dropped. -/
theorem lookupKV_parse_core (segs : List Str) (k : Str) :
    lookupKV (SplitKVSlice2Map segs KeyValueSeparator []) k =
      lookupKV (groupPairs (dropEmptyKeys (specPairs segs))) k := by
  by_cases hk : k = []
  · subst hk
    rw [lookupKV_SplitKVSlice2Map_nilkey, lookupKV_groupPairs,
      valuesOf_dropEmptyKeys_nilkey]
    rfl
  · rw [lookupKV_SplitKVSlice2Map segs [] k hk, lookupKV_groupPairs,
      valuesOf_dropEmptyKeys _ _ hk]
    rfl

/-! ## Lemmas on splitting and escaping -/

theorem splitOnSep_ne_nil (sep : Char) (s : Str) : splitOnSep sep s ≠ [] := by
  cases s with
  | nil => simp [splitOnSep]
  | cons c rest =>
    rw [splitOnSep]
    by_cases h : c = sep
    · simp [h]
    · rw [if_neg h]
      rcases splitOnSep sep rest with _ | ⟨s, ss⟩ <;> simp

theorem splitOnSep_of_not_mem (sep : Char) (xs : Str) (h : sep ∉ xs) :
    splitOnSep sep xs = [xs] := by
  induction xs with
  | nil => rfl
  | cons c xs ih =>
    have hc : c ≠ sep := fun e => h (e ▸ List.mem_cons_self c xs)
    rw [splitOnSep, if_neg hc, ih (fun hm => h (List.mem_cons_of_mem c hm))]

theorem splitOnSep_append (sep : Char) (xs ys : Str) (h : sep ∉ xs) :
    splitOnSep sep (xs ++ sep :: ys) = xs :: splitOnSep sep ys := by
  induction xs with
  | nil => simp [splitOnSep]
  | cons c xs ih =>
    have hc : c ≠ sep := fun e => h (e ▸ List.mem_cons_self c xs)
    rw [List.cons_append, splitOnSep, if_neg hc,
      ih (fun hm => h (List.mem_cons_of_mem c hm))]

theorem intercalate_cons₂ (sep : Char) (x y : Str) (zs : List Str) :
    List.intercalate [sep] (x :: y :: zs) = x ++ sep :: List.intercalate [sep] (y :: zs) := by
  simp [List.intercalate, List.intersperse_cons_cons]

theorem intercalate_splitOnSep (sep : Char) (s : Str) :
    List.intercalate [sep] (splitOnSep sep s) = s := by
  induction s with
  | nil => simp [splitOnSep, List.intercalate]
  | cons c rest ih =>
    rw [splitOnSep]
    by_cases h : c = sep
    · rw [if_pos h]
      rcases hs : splitOnSep sep rest with _ | ⟨s, ss⟩
      · exact absurd hs (splitOnSep_ne_nil sep rest)
      · rw [intercalate_cons₂, ← hs, ih, h]
        rfl
    · rw [if_neg h]
      rcases hs : splitOnSep sep rest with _ | ⟨s, ss⟩
      · exact absurd hs (splitOnSep_ne_nil sep rest)
      · rcases ss with _ | ⟨t, ts⟩
        · rw [hs] at ih
          simp only [List.intercalate, List.intersperse_singleton, List.flatten,
            List.append_nil] at ih ⊢
          exact congrArg (c :: ·) ih
        · rw [hs] at ih
          rw [intercalate_cons₂] at ih ⊢
          rw [List.cons_append, ih]

theorem splitKV_no_sep (sep : Char) (s : Str) (h : sep ∉ s) :
    SplitKV sep s = (s, []) := by
  rw [SplitKV, splitOnSep_of_not_mem sep s h]

theorem splitKV_first (sep : Char) (k v : Str) (h : sep ∉ k) :
    SplitKV sep (k ++ sep :: v) = (k, v) := by
  rw [SplitKV, splitOnSep_append sep k v h]
  rcases hs : splitOnSep sep v with _ | ⟨s, ss⟩
  · exact absurd hs (splitOnSep_ne_nil sep v)
  · show (k, [sep].intercalate (s :: ss)) = (k, v)
    rw [← hs, intercalate_splitOnSep]

theorem escape_cons_ne_bs (c : Char) (s : Str) (h : c ≠ '\\') :
    EscapeAnnot (c :: s) = c :: EscapeAnnot s := by
  cases s with
  | nil => rfl
  | cons d t => rw [EscapeAnnot, if_neg (fun hc => h hc.1)]

theorem escape_no_bs (s : Str) (h : '\\' ∉ s) : EscapeAnnot s = s := by
  induction s with
  | nil => rfl
  | cons c t ih =>
    have hc : c ≠ '\\' := fun e => h (e ▸ List.mem_cons_self c t)
    rw [escape_cons_ne_bs c t hc, ih (fun hm => h (List.mem_cons_of_mem c hm))]

theorem escape_append_no_bs (xs ys : Str) (h : '\\' ∉ xs) :
    EscapeAnnot (xs ++ ys) = xs ++ EscapeAnnot ys := by
  induction xs with
  | nil => rfl
  | cons c t ih =>
    have hc : c ≠ '\\' := fun e => h (e ▸ List.mem_cons_self c t)
    rw [List.cons_append, escape_cons_ne_bs c _ hc,
      ih (fun hm => h (List.mem_cons_of_mem c hm)), List.cons_append]

theorem escape_bs_colon (s : Str) :
    EscapeAnnot ('\\' :: ':' :: s) = EscapeAnnotationSeparator ++ EscapeAnnot s := by
  rw [EscapeAnnot, if_pos ⟨rfl, rfl⟩]

theorem unescape_cons_ne_bs (c : Char) (s : Str) (h : c ≠ '\\') :
    UnescapeAnnot (c :: s) = c :: UnescapeAnnot s := by
  rcases s with _ | ⟨c2, _ | ⟨c3, _ | ⟨c4, _ | ⟨c5, _ | ⟨c6, t⟩⟩⟩⟩⟩
  · rfl
  · rfl
  · rfl
  · rfl
  · rfl
  · rw [UnescapeAnnot, if_neg (fun hc => h hc.1)]

theorem unescape_no_bs (s : Str) (h : '\\' ∉ s) : UnescapeAnnot s = s := by
  induction s with
  | nil => rfl
  | cons c t ih =>
    have hc : c ≠ '\\' := fun e => h (e ▸ List.mem_cons_self c t)
    rw [unescape_cons_ne_bs c t hc, ih (fun hm => h (List.mem_cons_of_mem c hm))]

theorem unescape_placeholder (s : Str) :
    UnescapeAnnot (EscapeAnnotationSeparator ++ s) = ':' :: UnescapeAnnot s := by
  rw [show EscapeAnnotationSeparator ++ s = '\\' :: 'u' :: '0' :: '0' :: '3' :: 'A' :: s from rfl,
    UnescapeAnnot, if_pos ⟨rfl, rfl, rfl, rfl, rfl, rfl⟩]

/-! ## Claim C1 -/

/-- C1, amended (the source drops an option segment whose key part is
empty; otherwise the claim holds as stated): `parseAnnot` matches iff
the first colon-delimited segment of the escaped string equals the
plugin name and at least `argsCount` segments remain; on a match the
positional args are exactly the next `argsCount` segments, and the options
agree pointwise with the spec's description — every later segment with a
nonempty key becomes a key=value entry (a segment with no `=` is a key
with empty value, repeated keys join their values with `,` in
first-encounter order, extension options fill only absent keys); on a
mismatch no args or options are produced. -/
theorem parseAnnotation_correct (ann name : Str) (argsCount : Nat)
    (ext : List (Str × Str)) :
    ((parseAnnot ann name argsCount ext).isSome ↔
      (splitOnSep AnnotationSeparator (EscapeAnnot ann)).head? = some name ∧
        argsCount + 1 ≤ (splitOnSep AnnotationSeparator (EscapeAnnot ann)).length) ∧
    (parseAnnot ann name argsCount ext).map Prod.fst =
      (specParseAnnotationAmended ann name argsCount ext).map Prod.fst ∧
    ∀ k, (parseAnnot ann name argsCount ext).map (fun r => lookupKV r.2 k) =
      (specParseAnnotationAmended ann name argsCount ext).map
        (fun r => lookupKV r.2 k) := by
  unfold parseAnnot specParseAnnotationAmended
  rcases h : splitOnSep AnnotationSeparator (EscapeAnnot ann) with _ | ⟨s0, rest⟩
  · exact ⟨by simp, rfl, fun k => rfl⟩
  · dsimp only
    by_cases hc : s0 = name ∧ argsCount ≤ rest.length
    · rw [if_pos hc, if_pos hc]
      refine ⟨by simpa using ⟨hc.1, hc.2⟩, rfl, fun k => ?_⟩
      simp only [Option.map_some']
      congr 1
      rw [lookupKV_mergeExtOptions, lookupKV_mergeExtOptions,
        lookupKV_mapValues, lookupKV_mapValues, lookupKV_parse_core]
    · rw [if_neg hc, if_neg hc]
      refine ⟨?_, rfl, fun k => rfl⟩
      simp only [Option.isSome_none, Bool.false_eq_true, false_iff, List.head?_cons,
        List.length_cons, Option.some.injEq]
      intro hcl
      exact hc ⟨hcl.1, Nat.lt_succ_iff.mp (Nat.lt_of_lt_of_le (Nat.lt_succ_self _) hcl.2)⟩

/-- C1 counterexample: the claim as stated fails on the string `foo:`
(name `foo`, no positional args).  Its single later segment is empty; the
claim's description retains it as the key `""` with empty value, but the
source produces no such option entry. -/
theorem parseAnnotation_claimed_counterexample :
    ¬ ((parseAnnot "foo:".data "foo".data 0 []).map (fun r => lookupKV r.2 []) =
       (specParseAnnotationClaimed "foo:".data "foo".data 0 []).map
         (fun r => lookupKV r.2 [])) := by
  decide

/-! ## Claim C6 -/

theorem colon_not_mem_placeholder : AnnotationSeparator ∉ EscapeAnnotationSeparator := by
  decide

theorem mergeExtOptions_nil (os : List (Str × Str)) : mergeExtOptions os [] = os := rfl

/-- Success shape of `parseAnnot`: once the split of the escaped string
is known and the name and count match, the result is determined. -/
theorem parseAnnotation_eq_of_split (ann name : Str) (argsCount : Nat)
    (ext : List (Str × Str)) (rest : List Str)
    (hsplit : splitOnSep AnnotationSeparator (EscapeAnnot ann) = name :: rest)
    (hlen : argsCount ≤ rest.length) :
    parseAnnot ann name argsCount ext =
      some (rest.take argsCount,
        mergeExtOptions
          ((SplitKVSlice2Map (rest.drop argsCount) KeyValueSeparator []).map
            (fun p => (p.1, UnescapeAnnot p.2))) ext) := by
  rw [parseAnnot, hsplit]
  exact if_pos ⟨rfl, hlen⟩

/-- C6: escaped colons survive the parse round trip inside option values.
For a raw string whose option segment is `k=\:v` (with `k`, `v`, and the
plugin name free of separators and backslashes), the `\:` is translated to
the private placeholder before colon-splitting and restored to a literal
`:` in the resulting option value, so the parsed option value is `:v`. -/
theorem parseAnnotation_escaped_colon_value (name k v : Str)
    (hname_bs : '\\' ∉ name) (hname_c : ':' ∉ name)
    (hk_ne : k ≠ []) (hk_bs : '\\' ∉ k) (hk_c : ':' ∉ k) (hk_eq : '=' ∉ k)
    (hv_bs : '\\' ∉ v) (hv_c : ':' ∉ v) :
    (parseAnnot (name ++ (':' :: (k ++ ('=' :: ('\\' :: (':' :: v)))))) name 0 []).map
      (fun r => lookupKV r.2 k) = some (some (':' :: v)) := by
  have hseg : ':' ∉ k ++ ('=' :: (EscapeAnnotationSeparator ++ v)) := by
    intro hm
    rcases List.mem_append.mp hm with h1 | h2
    · exact hk_c h1
    · rcases List.mem_cons.mp h2 with h3 | h4
      · exact absurd h3 (by decide)
      · rcases List.mem_append.mp h4 with h5 | h6
        · exact colon_not_mem_placeholder h5
        · exact hv_c h6
  have hsplit : splitOnSep AnnotationSeparator
      (EscapeAnnot (name ++ (':' :: (k ++ ('=' :: ('\\' :: (':' :: v))))))) =
      [name, k ++ ('=' :: (EscapeAnnotationSeparator ++ v))] := by
    rw [escape_append_no_bs _ _ hname_bs, escape_cons_ne_bs _ _ (by decide),
      escape_append_no_bs _ _ hk_bs, escape_cons_ne_bs _ _ (by decide),
      escape_bs_colon, escape_no_bs _ hv_bs]
    exact (splitOnSep_append ':' name _ hname_c).trans
      (by rw [splitOnSep_of_not_mem ':' _ hseg])
  have hkv : SplitKV KeyValueSeparator (k ++ ('=' :: (EscapeAnnotationSeparator ++ v))) =
      (k, EscapeAnnotationSeparator ++ v) := splitKV_first _ _ _ hk_eq
  rw [parseAnnotation_eq_of_split _ _ _ _ _ hsplit (by simp)]
  rw [show List.drop 0 [k ++ ('=' :: (EscapeAnnotationSeparator ++ v))] =
    [k ++ ('=' :: (EscapeAnnotationSeparator ++ v))] from rfl]
  rw [SplitKVSlice2Map_cons, hkv]
  rw [if_neg hk_ne]
  rw [show lookupKV [] k = none from rfl]
  rw [show mapSet ([] : List (Str × Str)) k (EscapeAnnotationSeparator ++ v) =
    [(k, EscapeAnnotationSeparator ++ v)] from rfl]
  rw [SplitKVSlice2Map_nil, List.map_cons, List.map_nil, unescape_placeholder,
    unescape_no_bs _ hv_bs, mergeExtOptions_nil, Option.map_some']
  rw [lookupKV_cons, if_pos rfl]

/-- Witness for C6 at `name:k=\:v`. -/
theorem parseAnnotation_escaped_colon_value_witness :
    (parseAnnot "name:k=\\:v".data "name".data 0 []).map
      (fun r => lookupKV r.2 "k".data) = some (some ":v".data) := by
  have h := parseAnnotation_escaped_colon_value "name".data "k".data "v".data
    (by decide) (by decide) (by decide) (by decide) (by decide) (by decide)
    (by decide) (by decide)
  exact h

/-! ## Claim C10 -/

/-- C10: only option values are unescaped after colon-splitting.  An
escaped colon `\:` occurring inside a positional-argument segment or
inside an option key is left as the literal placeholder text `:`
rather than being restored to `:`: the positional arg for `name:a\:b`
is `a:b`, and the option key for `name:k1\:k2=v` is `k1:k2`
(the key `k1:k2` has no binding). -/
theorem parseAnnotation_placeholder_kept_in_args_and_keys
    (name a b k1 k2 v : Str)
    (hname_bs : '\\' ∉ name) (hname_c : ':' ∉ name)
    (ha_bs : '\\' ∉ a) (ha_c : ':' ∉ a) (hb_bs : '\\' ∉ b) (hb_c : ':' ∉ b)
    (hk1_bs : '\\' ∉ k1) (hk1_c : ':' ∉ k1) (hk1_eq : '=' ∉ k1)
    (hk2_bs : '\\' ∉ k2) (hk2_c : ':' ∉ k2) (hk2_eq : '=' ∉ k2)
    (hv_bs : '\\' ∉ v) (hv_c : ':' ∉ v) :
    (parseAnnot (name ++ (':' :: (a ++ ('\\' :: (':' :: b))))) name 1 []).map
        Prod.fst = some [a ++ (EscapeAnnotationSeparator ++ b)] ∧
    (parseAnnot (name ++ (':' :: (k1 ++ ('\\' :: (':' :: (k2 ++ ('=' :: v)))))))
        name 0 []).map
        (fun r => lookupKV r.2 (k1 ++ (EscapeAnnotationSeparator ++ k2))) =
      some (some v) ∧
    (parseAnnot (name ++ (':' :: (k1 ++ ('\\' :: (':' :: (k2 ++ ('=' :: v)))))))
        name 0 []).map
        (fun r => lookupKV r.2 (k1 ++ (':' :: k2))) = some none := by
  have hsplitA : splitOnSep AnnotationSeparator
      (EscapeAnnot (name ++ (':' :: (a ++ ('\\' :: (':' :: b)))))) =
      [name, a ++ (EscapeAnnotationSeparator ++ b)] := by
    rw [escape_append_no_bs _ _ hname_bs, escape_cons_ne_bs _ _ (by decide),
      escape_append_no_bs _ _ ha_bs, escape_bs_colon, escape_no_bs _ hb_bs]
    refine (splitOnSep_append ':' name _ hname_c).trans ?_
    rw [splitOnSep_of_not_mem ':' _ ?_]
    intro hm
    rcases List.mem_append.mp hm with h1 | h2
    · exact ha_c h1
    · rcases List.mem_append.mp h2 with h3 | h4
      · exact colon_not_mem_placeholder h3
      · exact hb_c h4
  have hsegB : k1 ++ (EscapeAnnotationSeparator ++ (k2 ++ ('=' :: v))) =
      (k1 ++ (EscapeAnnotationSeparator ++ k2)) ++ ('=' :: v) := by
    simp [List.append_assoc]
  have hsplitB : splitOnSep AnnotationSeparator
      (EscapeAnnot (name ++ (':' :: (k1 ++ ('\\' :: (':' :: (k2 ++ ('=' :: v)))))))) =
      [name, k1 ++ (EscapeAnnotationSeparator ++ (k2 ++ ('=' :: v)))] := by
    rw [escape_append_no_bs _ _ hname_bs, escape_cons_ne_bs _ _ (by decide),
      escape_append_no_bs _ _ hk1_bs, escape_bs_colon,
      escape_append_no_bs _ _ hk2_bs, escape_cons_ne_bs _ _ (by decide),
      escape_no_bs _ hv_bs]
    refine (splitOnSep_append ':' name _ hname_c).trans ?_
    rw [splitOnSep_of_not_mem ':' _ ?_]
    intro hm
    rcases List.mem_append.mp hm with h1 | h2
    · exact hk1_c h1
    · rcases List.mem_append.mp h2 with h3 | h4
      · exact colon_not_mem_placeholder h3
      · rcases List.mem_append.mp h4 with h5 | h6
        · exact hk2_c h5
        · rcases List.mem_cons.mp h6 with h7 | h8
          · exact absurd h7 (by decide)
          · exact hv_c h8
  have hkeyne : k1 ++ (EscapeAnnotationSeparator ++ k2) ≠ [] := by
    simp [EscapeAnnotationSeparator]
  have hkeyeq : '=' ∉ k1 ++ (EscapeAnnotationSeparator ++ k2) := by
    intro hm
    rcases List.mem_append.mp hm with h1 | h2
    · exact hk1_eq h1
    · rcases List.mem_append.mp h2 with h3 | h4
      · exact absurd h3 (by decide)
      · exact hk2_eq h4
  have hkv : SplitKV KeyValueSeparator
      (k1 ++ (EscapeAnnotationSeparator ++ (k2 ++ ('=' :: v)))) =
      (k1 ++ (EscapeAnnotationSeparator ++ k2), v) := by
    rw [hsegB]
    exact splitKV_first _ _ _ hkeyeq
  have hparseB : parseAnnot
      (name ++ (':' :: (k1 ++ ('\\' :: (':' :: (k2 ++ ('=' :: v))))))) name 0 [] =
      some ([], [(k1 ++ (EscapeAnnotationSeparator ++ k2), UnescapeAnnot v)]) := by
    rw [parseAnnotation_eq_of_split _ _ _ _ _ hsplitB (by simp)]
    rw [show List.drop 0 [k1 ++ (EscapeAnnotationSeparator ++ (k2 ++ ('=' :: v)))] =
      [k1 ++ (EscapeAnnotationSeparator ++ (k2 ++ ('=' :: v)))] from rfl]
    rw [SplitKVSlice2Map_cons, hkv, if_neg hkeyne]
    rfl
  refine ⟨?_, ?_, ?_⟩
  · rw [parseAnnotation_eq_of_split _ _ _ _ _ hsplitA (by simp)]
    rfl
  · rw [hparseB, Option.map_some', unescape_no_bs _ hv_bs, lookupKV_cons, if_pos rfl]
  · rw [hparseB, Option.map_some', lookupKV_cons, if_neg ?_]
    · rfl
    · intro heq
      have hcmem : ':' ∈ k1 ++ (':' :: k2) := List.mem_append_right _ (List.mem_cons_self _ _)
      rw [← heq] at hcmem
      rcases List.mem_append.mp hcmem with h1 | h2
      · exact hk1_c h1
      · rcases List.mem_append.mp h2 with h3 | h4
        · exact colon_not_mem_placeholder h3
        · exact hk2_c h4

/-- Witness for C10 at `name:a\:b` (one positional arg) and
`name:k1\:k2=v` (option key with an escaped colon). -/
theorem parseAnnotation_placeholder_kept_witness :
    (parseAnnot "name:a\\:b".data "name".data 1 []).map Prod.fst =
      some ["a\\u003Ab".data] ∧
    (parseAnnot "name:k1\\:k2=v".data "name".data 0 []).map
      (fun r => lookupKV r.2 "k1\\u003Ak2".data) = some (some "v".data) ∧
    (parseAnnot "name:k1\\:k2=v".data "name".data 0 []).map
      (fun r => lookupKV r.2 "k1:k2".data) = some none := by
  have h := parseAnnotation_placeholder_kept_in_args_and_keys
    "name".data "a".data "b".data "k1".data "k2".data "v".data
    (by decide) (by decide) (by decide) (by decide) (by decide) (by decide)
    (by decide) (by decide) (by decide) (by decide) (by decide) (by decide)
    (by decide) (by decide)
  exact h

/-! ## Claim C4 -/

/-- C4: when the option segments of a matched raw string bind the same key
more than once, the parsed options map that key to the occurrence values
concatenated with `,` in first-encounter order. -/
theorem parseAnnotation_repeated_keys (ann name : Str) (argsCount : Nat)
    (ext : List (Str × Str)) (r : List Str × List (Str × Str)) (k v1 v2 : Str)
    (vs : List Str)
    (h : parseAnnot ann name argsCount ext = some r)
    (hocc : valuesOf (specPairs (((splitOnSep AnnotationSeparator
        (EscapeAnnot ann)).tail).drop argsCount)) k = v1 :: v2 :: vs)
    (hk : k ≠ [])
    (hbs : '\\' ∉ joinComma (v1 :: v2 :: vs)) :
    lookupKV r.2 k = some (joinComma (v1 :: v2 :: vs)) := by
  rw [parseAnnot] at h
  rcases hsp : splitOnSep AnnotationSeparator (EscapeAnnot ann) with
    _ | ⟨s0, rest⟩
  · rw [hsp] at h
    exact absurd h (by simp)
  · rw [hsp] at h hocc
    dsimp only at h
    by_cases hc : s0 = name ∧ argsCount ≤ rest.length
    · rw [if_pos hc] at h
      obtain rfl : r = (rest.take argsCount,
          mergeExtOptions
            ((SplitKVSlice2Map (rest.drop argsCount) KeyValueSeparator []).map
              (fun p => (p.1, UnescapeAnnot p.2))) ext) := by
        exact (Option.some.injEq _ _ ▸ h).symm
      show lookupKV (mergeExtOptions _ ext) k = _
      rw [lookupKV_mergeExtOptions, lookupKV_mapValues,
        lookupKV_SplitKVSlice2Map _ _ _ hk]
      rw [show lookupKV [] k = none from rfl]
      rw [show ((s0 :: rest).tail : List Str) = rest from rfl] at hocc
      rw [hocc]
      show some (UnescapeAnnot (concatOcc v1 (v2 :: vs))) = _
      rw [show concatOcc v1 (v2 :: vs) = joinComma (v1 :: v2 :: vs) from rfl,
        unescape_no_bs _ hbs]
    · rw [if_neg hc] at h
      exact absurd h (by simp)

/-- Witness for C4 at the repository's own test string
`test:arg0:arg1:arg2:k1=v1:k1=v2:k2=\:v2`: the key `k1` occurs twice and
is mapped to `v1,v2`. -/
theorem parseAnnotation_repeated_keys_witness :
    ∃ r, parseAnnot "test:arg0:arg1:arg2:k1=v1:k1=v2:k2=\\:v2".data
        "test".data 2 [("k2".data, "v4".data), ("k3".data, "v3".data)] = some r ∧
      lookupKV r.2 "k1".data = some "v1,v2".data := by
  refine ⟨(["arg0".data, "arg1".data],
    [("arg2".data, "".data), ("k1".data, "v1,v2".data), ("k2".data, ":v2".data),
      ("k3".data, "v3".data)]), by decide, ?_⟩
  have h2 := parseAnnotation_repeated_keys
    "test:arg0:arg1:arg2:k1=v1:k1=v2:k2=\\:v2".data "test".data 2
    [("k2".data, "v4".data), ("k3".data, "v3".data)]
    (["arg0".data, "arg1".data],
      [("arg2".data, "".data), ("k1".data, "v1,v2".data), ("k2".data, ":v2".data),
        ("k3".data, "v3".data)])
    "k1".data "v1".data "v2".data []
    (by decide) (by decide) (by decide) (by decide)
  rw [h2]
  decide

/-! ## Claim C7 -/

/-- `parseAnnot` with extension options is the extension-free parse
followed by the extension merge. -/
theorem parseAnnotation_ext_eq (ann name : Str) (argsCount : Nat)
    (ext : List (Str × Str)) :
    parseAnnot ann name argsCount ext =
      (parseAnnot ann name argsCount []).map
        (fun r => (r.1, mergeExtOptions r.2 ext)) := by
  rw [parseAnnot, parseAnnot]
  rcases hsp : splitOnSep AnnotationSeparator (EscapeAnnot ann) with
    _ | ⟨s0, rest⟩
  · rfl
  · dsimp only
    by_cases hc : s0 = name ∧ argsCount ≤ rest.length
    · rw [if_pos hc, if_pos hc]
      rfl
    · rw [if_neg hc, if_neg hc]
      rfl

/-- C7: the caller-supplied extension options fill in exactly the keys
absent from the parsed options; an extension entry never overrides a key
already present, including a key parsed with an empty value. -/
theorem parseAnnotation_ext_no_override (ann name : Str) (argsCount : Nat)
    (ext : List (Str × Str)) (args : List Str) (opts : List (Str × Str))
    (h : parseAnnot ann name argsCount [] = some (args, opts)) :
    parseAnnot ann name argsCount ext =
      some (args, mergeExtOptions opts ext) ∧
    (∀ k v, lookupKV opts k = some v →
      lookupKV (mergeExtOptions opts ext) k = some v) ∧
    (∀ k, lookupKV opts k = none →
      lookupKV (mergeExtOptions opts ext) k = lookupKV ext k) := by
  refine ⟨?_, ?_, ?_⟩
  · rw [parseAnnotation_ext_eq, h]
    rfl
  · intro k v hv
    rw [lookupKV_mergeExtOptions, hv]
  · intro k hv
    rw [lookupKV_mergeExtOptions, hv]

/-- Witness for C7 at the repository's own test string with extension
options `k2↦v4, k3↦v3`: the parsed `k2` (value `:v2`) and the
empty-valued `arg2` are not overridden, while the absent `k3` is added. -/
theorem parseAnnotation_ext_no_override_witness :
    parseAnnot "test:arg0:arg1:arg2:k1=v1:k1=v2:k2=\\:v2".data "test".data 2
        [("k2".data, "v4".data), ("k3".data, "v3".data)] =
      some (["arg0".data, "arg1".data],
        mergeExtOptions
          [("arg2".data, "".data), ("k1".data, "v1,v2".data), ("k2".data, ":v2".data)]
          [("k2".data, "v4".data), ("k3".data, "v3".data)]) ∧
    lookupKV (mergeExtOptions
        [("arg2".data, "".data), ("k1".data, "v1,v2".data), ("k2".data, ":v2".data)]
        [("k2".data, "v4".data), ("k3".data, "v3".data)]) "k2".data =
      some ":v2".data ∧
    lookupKV (mergeExtOptions
        [("arg2".data, "".data), ("k1".data, "v1,v2".data), ("k2".data, ":v2".data)]
        [("k2".data, "v4".data), ("k3".data, "v3".data)]) "arg2".data = some [] ∧
    lookupKV (mergeExtOptions
        [("arg2".data, "".data), ("k1".data, "v1,v2".data), ("k2".data, ":v2".data)]
        [("k2".data, "v4".data), ("k3".data, "v3".data)]) "k3".data =
      some "v3".data := by
  obtain ⟨h1, h2, h3⟩ := parseAnnotation_ext_no_override
    "test:arg0:arg1:arg2:k1=v1:k1=v2:k2=\\:v2".data "test".data 2
    [("k2".data, "v4".data), ("k3".data, "v3".data)]
    ["arg0".data, "arg1".data]
    [("arg2".data, "".data), ("k1".data, "v1,v2".data), ("k2".data, ":v2".data)]
    (by decide)
  exact ⟨h1, h2 _ _ (by decide), h2 _ _ (by decide), (h3 _ (by decide)).trans (by decide)⟩

/-! ## AST model (the go/ast fragments consumed by parse.go)

`go/ast` is an external collaborator of the reviewed code: parse.go only
reads declaration shapes, comment groups and field lists.  A comment group
is modelled by the text `Text()` returns (`Option` encodes a nil
pointer). -/

/-- A (possibly nil) `*ast.CommentGroup`, as its `Text()` value. -/
abbrev CommentGroup := Option Str

/-- `ast.Field`: names (empty for anonymous fields), doc and line comment. -/
structure AstField where
  names : List Str
  doc : CommentGroup := none
  comment : CommentGroup := none
deriving DecidableEq

/-- The shape of a type-spec's type expression, as discriminated by the
type switch in `ParseGenericDecl`; `other` covers the `default:` arm. -/
inductive TypeExpr where
  | interface (methods : List AstField)
  | struct (fields : List AstField)
  | map
  | array
  | func
  | ident
  | selector
  | star
  | other
deriving DecidableEq

/-- `ast.TypeSpec`. -/
structure TypeSpec where
  name : Str
  doc : CommentGroup := none
  comment : CommentGroup := none
  typ : TypeExpr
deriving DecidableEq

/-- `ast.ValueSpec`. -/
structure ValueSpec where
  names : List Str
  doc : CommentGroup := none
  comment : CommentGroup := none
deriving DecidableEq

/-- `ast.Spec`: the variants `ParseGenericDecl` type-switches on. -/
inductive Spec where
  | value (vs : ValueSpec)
  | typeSpec (ts : TypeSpec)
  | importSpec
deriving DecidableEq

/-- `gen.Tok` of an `ast.GenDecl`. -/
inductive GenTok where
  | const
  | var
  | typ
  | importTok
deriving DecidableEq

/-- `ast.GenDecl`: doc comment, token, `Lparen.IsValid()`, and specs. -/
structure GenDecl where
  doc : CommentGroup := none
  tok : GenTok
  lparenValid : Bool
  specs : List Spec
deriving DecidableEq

/-- `ast.FuncDecl`: name and doc comment. -/
structure FuncDecl where
  name : Str
  doc : CommentGroup := none
deriving DecidableEq

/-- `ast.Decl`: the variants `ParseDecls` type-switches on. -/
inductive Decl where
  | gen (g : GenDecl)
  | func (f : FuncDecl)
  | bad
deriving DecidableEq

/-! ## Declaration model (parse.go) -/

/-- Type codes of an annotated declaration (`DeclTypeInterface = iota + 1`). -/
def DeclTypeInterface : Nat := 1

def DeclTypeStruct : Nat := 2

def DeclTypeMap : Nat := 3

def DeclTypeArray : Nat := 4

def DeclTypeFunc : Nat := 5

def DeclTypeRefer : Nat := 6

def DeclFunc : Nat := 7

def DeclValue : Nat := 8

/-- `AnnotatedField` (the `Decl` back-reference is omitted: it merely
points at the owning declaration and carries no further data). -/
structure AnnotatedField where
  field : AstField
  docs : List Str
  annotations : List Str
deriving DecidableEq

/-- `AnnotatedDecl` (the `File` back-reference is attached by
`parseFileDecls` in the source and carries no data used by the claims). -/
structure AnnotatedDecl where
  type : Nat
  funcDecl : Option FuncDecl := none
  typeSpec : Option TypeSpec := none
  valueSpec : Option ValueSpec := none
  docs : List Str
  annotations : List Str
  fields : List AnnotatedField := []
deriving DecidableEq

/-! ## Comment splitting (ParseCommentGroup) -/

/-- `unicode.IsSpace` restricted to the ASCII range (the two non-ASCII
space characters U+0085 and U+00A0 are also recognised by Go; no claim
involves them, and including them here would not change any proof). -/
def isGoSpace (c : Char) : Bool :=
  c = ' ' ∨ c = '\t' ∨ c = '\n' ∨ c = '\x0b' ∨ c = '\x0c' ∨ c = '\r'

/-- `strings.TrimSpace`. -/
def goTrimSpace (s : Str) : Str :=
  ((s.dropWhile isGoSpace).reverse.dropWhile isGoSpace).reverse

/-- One comment group's contribution to the doc list:
`strings.Split(strings.TrimSpace(g.Text()), "\n")`. -/
def commentLines (text : Str) : List Str :=
  splitOnSep '\n' (goTrimSpace text)

/-- The in-place partition loop of `ParseCommentGroup`: lines whose
trimmed text carries the prefix become annotations (with the prefix
stripped), the rest stay as docs, each side in original order. -/
def splitDocsAnnotations (pfx : Str) : List Str → List Str × List Str
  | [] => ([], [])
  | d :: ds =>
    let r := splitDocsAnnotations pfx ds
    let t := TrimPrefix (goTrimSpace d) pfx
    if t.2 then (r.1, t.1 :: r.2) else (d :: r.1, r.2)

/-- Source: `ParseCommentGroup`: collect the lines of all non-nil groups,
then (when a prefix is given) partition them into docs and annotations. -/
def ParseCommentGroup (pfx : Str) (cgs : List CommentGroup) : List Str × List Str :=
  let docs := cgs.foldl
    (fun acc g => match g with | none => acc | some t => acc ++ commentLines t) []
  if pfx = [] then (docs, [])
  else splitDocsAnnotations pfx docs

/-! ## ParseGenericDecl, ParseFuncDecl, ParseDecls (parse.go) -/

/-- Source: `parseAnnotatedFields`: fields with at least one name and at
least one attached marker line are collected in order. -/
def parseAnnotatedFields (fl : List AstField) (pfx : Str) : List AnnotatedField :=
  fl.filterMap (fun field =>
    if field.names = [] then none
    else
      let da := ParseCommentGroup pfx [field.doc, field.comment]
      if da.2 = [] then none
      else some ⟨field, da.1, da.2⟩)

/-- The per-member step of the `token.CONST, token.VAR` arm of
`ParseGenericDecl`. -/
def valueMember (pfx : Str) (genDocs genAnns : List Str) (single : Bool)
    (s : Spec) : Option AnnotatedDecl :=
  match s with
  | .value vs =>
    let da := ParseCommentGroup pfx [vs.doc, vs.comment]
    let annotations := genAnns ++ da.2
    if annotations = [] then none
    else
      some { type := DeclValue, valueSpec := some vs,
             docs := (if single then genDocs else []) ++ da.1,
             annotations := annotations }
  | _ => none

/-- The per-member step of the `token.TYPE` arm of `ParseGenericDecl`;
the `default:` arm of the inner type switch skips the member. -/
def typeMember (pfx : Str) (genDocs genAnns : List Str) (single : Bool)
    (s : Spec) : Option AnnotatedDecl :=
  match s with
  | .typeSpec spec =>
    let da := ParseCommentGroup pfx [spec.doc, spec.comment]
    let annotations := genAnns ++ da.2
    if annotations = [] then none
    else
      let docs := (if single then genDocs else []) ++ da.1
      match spec.typ with
      | .interface methods =>
        some { type := DeclTypeInterface, typeSpec := some spec, docs := docs,
               annotations := annotations,
               fields := parseAnnotatedFields methods pfx }
      | .struct fields =>
        some { type := DeclTypeStruct, typeSpec := some spec, docs := docs,
               annotations := annotations,
               fields := parseAnnotatedFields fields pfx }
      | .map =>
        some { type := DeclTypeMap, typeSpec := some spec, docs := docs,
               annotations := annotations }
      | .array =>
        some { type := DeclTypeArray, typeSpec := some spec, docs := docs,
               annotations := annotations }
      | .func =>
        some { type := DeclTypeFunc, typeSpec := some spec, docs := docs,
               annotations := annotations }
      | .ident =>
        some { type := DeclTypeRefer, typeSpec := some spec, docs := docs,
               annotations := annotations }
      | .selector =>
        some { type := DeclTypeRefer, typeSpec := some spec, docs := docs,
               annotations := annotations }
      | .star =>
        some { type := DeclTypeRefer, typeSpec := some spec, docs := docs,
               annotations := annotations }
      | .other => none
  | _ => none

/-- Source: `ParseGenericDecl`: group docs/annotations are computed once;
`single` holds when the group has no parens or exactly one spec;
each arm walks the specs, skipping members of the wrong spec kind and
members whose combined marker-line list is empty. -/
def ParseGenericDecl (gen : GenDecl) (pfx : Str) : List AnnotatedDecl :=
  let gda := ParseCommentGroup pfx [gen.doc]
  let single := !gen.lparenValid || gen.specs.length == 1
  match gen.tok with
  | .const => gen.specs.filterMap (valueMember pfx gda.1 gda.2 single)
  | .var => gen.specs.filterMap (valueMember pfx gda.1 gda.2 single)
  | .typ => gen.specs.filterMap (typeMember pfx gda.1 gda.2 single)
  | .importTok => []

/-- Source: `ParseFuncDecl`: nil unless at least one marker line. -/
def ParseFuncDecl (decl : FuncDecl) (pfx : Str) : Option AnnotatedDecl :=
  let da := ParseCommentGroup pfx [decl.doc]
  if da.2 = [] then none
  else some { type := DeclFunc, funcDecl := some decl,
              docs := da.1, annotations := da.2 }

/-- Source: `ParseDecls`. -/
def ParseDecls (d : Decl) (pfx : Str) : List AnnotatedDecl :=
  match d with
  | .gen g => ParseGenericDecl g pfx
  | .func f =>
    match ParseFuncDecl f pfx with
    | some item => [item]
    | none => []
  | .bad => []

/-! ## File and directory layer (parse.go)

`ParseFile`/`ReadFile` (go/parser and the read cache) are external
collaborators: a source file is modelled by its name together with the
outcome of reading it and the outcome of parsing it.  The version store
`declParsedStore` memoizes `parseFileDecls` per (tree, content version)
and always returns the value the un-memoized computation produces, so it
is embedded transparently. -/

/-- A parsed file tree (`File.Ast`): its package name and declarations. -/
structure Ast where
  pkgName : Str
  decls : List Decl
deriving DecidableEq

instance exceptDecEq {ε α : Type} [DecidableEq ε] [DecidableEq α] :
    DecidableEq (Except ε α) := fun x y =>
  match x, y with
  | .ok a, .ok b =>
    if h : a = b then isTrue (by rw [h]) else isFalse (by simp [h])
  | .error e, .error f =>
    if h : e = f then isTrue (by rw [h]) else isFalse (by simp [h])
  | .ok _, .error _ => isFalse (by simp)
  | .error _, .ok _ => isFalse (by simp)

/-- One on-disk source file: base name, read outcome, parse outcome. -/
structure SrcFile where
  name : Str
  read : Except Str Str
  ast : Except Str Ast
deriving DecidableEq

/-- Modelled from the spec: `IsGoFile` is absent from the reviewed
sources; per §7 ("wrong extension: not an error, yields an empty result")
it tests for the `.go` suffix. -/
def IsGoFile (filename : Str) : Bool := ".go".data.isSuffixOf filename

/-- Source: `parseFileDecls`: every declaration of the tree, in order
(the `File` back-reference assignment carries no data used here). -/
def parseFileDecls (ast : Ast) (pfx : Str) : List AnnotatedDecl :=
  (ast.decls.map (fun d => ParseDecls d pfx)).flatten

/-- Source: `ParseFileDecls`: non-`.go` files and files whose content
does not contain the prefix yield an empty result without error; read
errors and parse errors abort with the error. -/
def ParseFileDecls (f : SrcFile) (pfx : Str) : Except Str (List AnnotatedDecl) :=
  if ¬ IsGoFile f.name then .ok []
  else
    match f.read with
    | .error e => .error e
    | .ok data =>
      if ¬ (pfx <:+: data) then .ok []
      else
        match f.ast with
        | .error e => .error e
        | .ok ast => .ok (parseFileDecls ast pfx)

/-- A file-system tree: what `filepath.Walk` traverses, children in walk
(lexical) order. -/
inductive FSNode where
  | file (f : SrcFile)
  | dir (name : Str) (children : List FSNode)

/-- Source: `SkipDirs`. -/
def SkipDirs : List Str := ["vendor".data, "node_modules".data, "testdata".data]

/-- The directory-pruning test of the walk callback: a fixed skip set
plus any name starting with `.`. -/
def skipDir (name : Str) : Bool :=
  name ∈ SkipDirs || name.head? = some '.'

mutual

/-- The `filepath.Walk` traversal of `ParseFileOrDirectory`: files parse
in walk order into slots; a skipped directory prunes its subtree; the
first error aborts the whole walk. -/
def walkNode (pfx : Str) : FSNode → Except Str (List AnnotatedDecl)
  | .file f => ParseFileDecls f pfx
  | .dir name children =>
    if skipDir name then .ok []
    else walkChildren pfx children

def walkChildren (pfx : Str) : List FSNode → Except Str (List AnnotatedDecl)
  | [] => .ok []
  | n :: ns => do
    let d ← walkNode pfx n
    let ds ← walkChildren pfx ns
    pure (d ++ ds)

end

/-- Source: `ParseFileOrDirectory`, returning Go's `(decls, err)` pair:
a plain file is handed to `ParseFileDecls`; a directory is walked, and on
a walk error the declaration list named in the `return` is still `nil`. -/
def ParseFileOrDirectory (root : FSNode) (pfx : Str) :
    List AnnotatedDecl × Option Str :=
  match root with
  | .file f =>
    match ParseFileDecls f pfx with
    | .error e => ([], some e)
    | .ok ds => (ds, none)
  | .dir name children =>
    match walkNode pfx (.dir name children) with
    | .error e => ([], some e)
    | .ok slots => (slots, none)

mutual

/-- The pre-order list of files the walk visits (pruned subtrees
excluded). -/
def walkFiles : FSNode → List SrcFile
  | .file f => [f]
  | .dir name children =>
    if skipDir name then []
    else walkFilesChildren children

/-- List version of `walkFiles`. -/
def walkFilesChildren : List FSNode → List SrcFile
  | [] => []
  | n :: ns => walkFiles n ++ walkFilesChildren ns

end

/-- Processing the visited files linearly: parse each in order, abort at
the first error, concatenate the results. -/
def processFiles (pfx : Str) : List SrcFile → Except Str (List AnnotatedDecl)
  | [] => .ok []
  | f :: fs => do
    let d ← ParseFileDecls f pfx
    let ds ← processFiles pfx fs
    pure (d ++ ds)

/-! ## The walk as linear processing of the visited files -/

theorem processFiles_append (pfx : Str) (a b : List SrcFile) :
    processFiles pfx (a ++ b) =
      (do
        let x ← processFiles pfx a
        let y ← processFiles pfx b
        pure (x ++ y)) := by
  induction a with
  | nil =>
    cases hb : processFiles pfx b <;>
      simp [processFiles, hb, Bind.bind, Except.bind, pure, Except.pure]
  | cons f fs ih =>
    rw [List.cons_append, processFiles, processFiles, ih]
    cases ParseFileDecls f pfx <;>
      cases processFiles pfx fs <;>
      cases processFiles pfx b <;>
      simp [Bind.bind, Except.bind, pure, Except.pure, List.append_assoc]

mutual

theorem walkNode_eq_processFiles (pfx : Str) :
    ∀ fs : FSNode, walkNode pfx fs = processFiles pfx (walkFiles fs)
  | .file f => by
    rw [walkNode, walkFiles]
    cases h : ParseFileDecls f pfx <;>
      simp [processFiles, h, Bind.bind, Except.bind, pure, Except.pure]
  | .dir name children => by
    rw [walkNode, walkFiles]
    by_cases h : skipDir name = true
    · rw [if_pos h, if_pos h]
      rfl
    · rw [if_neg h, if_neg h]
      exact walkChildren_eq_processFiles pfx children

theorem walkChildren_eq_processFiles (pfx : Str) :
    ∀ l : List FSNode, walkChildren pfx l = processFiles pfx (walkFilesChildren l)
  | [] => rfl
  | n :: ns => by
    rw [walkChildren, walkFilesChildren, walkNode_eq_processFiles pfx n,
      walkChildren_eq_processFiles pfx ns, processFiles_append]

end

theorem processFiles_error_at (pfx : Str) (before : List SrcFile) (f : SrcFile)
    (after : List SrcFile) (e : Str)
    (hok : ∀ g ∈ before, ∃ ds, ParseFileDecls g pfx = .ok ds)
    (hf : ParseFileDecls f pfx = .error e) :
    processFiles pfx (before ++ f :: after) = .error e := by
  induction before with
  | nil =>
    rw [List.nil_append, processFiles, hf]
    rfl
  | cons g gs ih =>
    obtain ⟨ds, hg⟩ := hok g (List.mem_cons_self g gs)
    rw [List.cons_append, processFiles, hg,
      ih (fun g' hg' => hok g' (List.mem_cons_of_mem g hg'))]
    rfl

/-! ## Claim C9 -/

/-- C9: when a directory walk meets a file that fails to read or parse,
the whole walk aborts with that first error and the returned declaration
list is empty (no partial results); an error outcome never carries a
partial list; and a file that is not a `.go` file, or whose content lacks
the marker text, is not an error and contributes an empty result. -/
theorem ParseFileOrDirectory_abort_and_filter :
    (∀ (dname : Str) (children : List FSNode) (pfx : Str) (before : List SrcFile)
        (f : SrcFile) (after : List SrcFile) (e : Str),
      walkFiles (.dir dname children) = before ++ f :: after →
      (∀ g ∈ before, (ParseFileDecls g pfx).isOk = true) →
      ParseFileDecls f pfx = .error e →
      ParseFileOrDirectory (.dir dname children) pfx = ([], some e)) ∧
    (∀ (root : FSNode) (pfx e : Str),
      (ParseFileOrDirectory root pfx).2 = some e →
      (ParseFileOrDirectory root pfx).1 = []) ∧
    (∀ (f : SrcFile) (pfx : Str),
      (IsGoFile f.name = false ∨ ∃ data, f.read = .ok data ∧ ¬ (pfx <:+: data)) →
      ParseFileDecls f pfx = .ok []) := by
  refine ⟨?_, ?_, ?_⟩
  · intro dname children pfx before f after e hwf hok hf
    have h1 : walkNode pfx (.dir dname children) = .error e := by
      rw [walkNode_eq_processFiles, hwf]
      refine processFiles_error_at pfx before f after e ?_ hf
      intro g hg
      cases hcase : ParseFileDecls g pfx with
      | ok ds => exact ⟨ds, rfl⟩
      | error e' =>
        have := hok g hg
        rw [hcase] at this
        exact absurd this (by simp [Except.isOk, Except.toBool])
    simp only [ParseFileOrDirectory]
    rw [h1]
  · intro root pfx e
    cases root with
    | file f =>
      simp only [ParseFileOrDirectory]
      cases ParseFileDecls f pfx <;> simp
    | dir name children =>
      simp only [ParseFileOrDirectory]
      cases walkNode pfx (.dir name children) <;> simp
  · intro f pfx h
    rcases h with hgo | ⟨data, hread, hni⟩
    · simp [ParseFileDecls, hgo]
    · by_cases hgo : IsGoFile f.name
      · simp [ParseFileDecls, hgo, hread, hni]
      · simp [ParseFileDecls, hgo]

/-- Witness for C9: a directory holding one well-formed annotated file
followed by one file failing to parse yields the parse error with an
empty declaration list, and a non-`.go` file yields an empty result
without error. -/
theorem ParseFileOrDirectory_abort_and_filter_witness :
    ParseFileOrDirectory
      (.dir "d".data
        [.file ⟨"a.go".data, .ok "// +zz:test".data,
          .ok ⟨"x".data, [Decl.func ⟨"F0".data, some "+zz:test".data⟩]⟩⟩,
         .file ⟨"b.go".data, .ok "// +zz:other".data, .error "parse failure".data⟩])
      "+zz:".data = ([], some "parse failure".data) ∧
    ParseFileDecls ⟨"c.txt".data, .ok "x".data, .ok ⟨"x".data, []⟩⟩ "+zz:".data =
      .ok [] := by
  have hskip : skipDir "d".data = false := by decide
  constructor
  · refine ParseFileOrDirectory_abort_and_filter.1 "d".data _ "+zz:".data
      [⟨"a.go".data, .ok "// +zz:test".data,
        .ok ⟨"x".data, [Decl.func ⟨"F0".data, some "+zz:test".data⟩]⟩⟩]
      ⟨"b.go".data, .ok "// +zz:other".data, .error "parse failure".data⟩
      [] "parse failure".data ?_ ?_ (by decide)
    · simp [walkFiles, walkFilesChildren, hskip]
    · intro g hg
      rw [List.mem_singleton] at hg
      subst hg
      decide
  · exact ParseFileOrDirectory_abort_and_filter.2.2 _ _ (Or.inl (by decide))

/-! ## Member characterizations for ParseGenericDecl -/

theorem valueMember_some_iff (pfx : Str) (gd ga : List Str) (sing : Bool)
    (s : Spec) (d : AnnotatedDecl) :
    valueMember pfx gd ga sing s = some d ↔
      ∃ vs, s = Spec.value vs ∧
        ga ++ (ParseCommentGroup pfx [vs.doc, vs.comment]).2 ≠ [] ∧
        d = { type := DeclValue, valueSpec := some vs,
              docs := (if sing then gd else []) ++
                (ParseCommentGroup pfx [vs.doc, vs.comment]).1,
              annotations := ga ++ (ParseCommentGroup pfx [vs.doc, vs.comment]).2 } := by
  cases s with
  | value vs =>
    constructor
    · intro h
      by_cases he : ga ++ (ParseCommentGroup pfx [vs.doc, vs.comment]).2 = []
      · rw [valueMember] at h
        rw [if_pos he] at h
        exact absurd h (by simp)
      · rw [valueMember] at h
        rw [if_neg he] at h
        exact ⟨vs, rfl, he, (Option.some.inj h).symm⟩
    · rintro ⟨vs', hv, hne, hd⟩
      obtain rfl : vs = vs' := Spec.value.inj hv
      rw [valueMember, if_neg hne, hd]
  | typeSpec ts =>
    constructor
    · intro h
      exact absurd h (by simp [valueMember])
    · rintro ⟨vs', hv, _, _⟩
      exact absurd hv (by simp)
  | importSpec =>
    constructor
    · intro h
      exact absurd h (by simp [valueMember])
    · rintro ⟨vs', hv, _, _⟩
      exact absurd hv (by simp)

theorem typeMember_some (pfx : Str) (gd ga : List Str) (sing : Bool)
    (s : Spec) (d : AnnotatedDecl)
    (h : typeMember pfx gd ga sing s = some d) :
    ∃ ts, s = Spec.typeSpec ts ∧
      ga ++ (ParseCommentGroup pfx [ts.doc, ts.comment]).2 ≠ [] ∧
      d.annotations = ga ++ (ParseCommentGroup pfx [ts.doc, ts.comment]).2 ∧
      d.docs = (if sing then gd else []) ++
        (ParseCommentGroup pfx [ts.doc, ts.comment]).1 ∧
      d.typeSpec = some ts := by
  cases s with
  | value vs => exact absurd h (by simp [typeMember])
  | importSpec => exact absurd h (by simp [typeMember])
  | typeSpec ts =>
    refine ⟨ts, rfl, ?_⟩
    by_cases he : ga ++ (ParseCommentGroup pfx [ts.doc, ts.comment]).2 = []
    · rw [typeMember] at h
      rw [if_pos he] at h
      exact absurd h (by simp)
    · rw [typeMember] at h
      rw [if_neg he] at h
      cases htyp : ts.typ <;> rw [htyp] at h <;>
        first
          | (obtain rfl : d = _ := (Option.some.inj h).symm
             exact ⟨he, rfl, rfl, rfl⟩)
          | exact absurd h (by simp)

theorem typeMember_complete (pfx : Str) (gd ga : List Str) (sing : Bool)
    (ts : TypeSpec) (hne : ts.typ ≠ TypeExpr.other)
    (hanns : ga ++ (ParseCommentGroup pfx [ts.doc, ts.comment]).2 ≠ []) :
    ∃ d, typeMember pfx gd ga sing (Spec.typeSpec ts) = some d ∧
      d.typeSpec = some ts ∧
      d.annotations = ga ++ (ParseCommentGroup pfx [ts.doc, ts.comment]).2 ∧
      d.docs = (if sing then gd else []) ++
        (ParseCommentGroup pfx [ts.doc, ts.comment]).1 := by
  rw [typeMember]
  rw [if_neg hanns]
  cases htyp : ts.typ <;>
    first
      | exact absurd htyp hne
      | exact ⟨_, rfl, rfl, rfl, rfl⟩

/-! ## Claim C8 -/

theorem ParseGenericDecl_mem_annotations_ne (gen : GenDecl) (pfx : Str)
    (d : AnnotatedDecl) (h : d ∈ ParseGenericDecl gen pfx) :
    d.annotations ≠ [] := by
  rw [ParseGenericDecl] at h
  cases htok : gen.tok <;> rw [htok] at h
  case importTok => exact absurd h (by simp)
  case typ =>
    obtain ⟨s, _, hsome⟩ := List.mem_filterMap.mp h
    obtain ⟨ts, _, hne, hanns, _⟩ := typeMember_some _ _ _ _ s d hsome
    rw [hanns]
    exact hne
  all_goals
    obtain ⟨s, _, hsome⟩ := List.mem_filterMap.mp h
    obtain ⟨vs, _, hne, hd⟩ := (valueMember_some_iff _ _ _ _ s d).mp hsome
    rw [hd]
    exact hne

theorem ParseFuncDecl_annotations_ne (f : FuncDecl) (pfx : Str) (d : AnnotatedDecl)
    (h : ParseFuncDecl f pfx = some d) : d.annotations ≠ [] := by
  rw [ParseFuncDecl] at h
  by_cases he : (ParseCommentGroup pfx [f.doc]).2 = []
  · simp only [he, if_pos rfl] at h
    exact absurd h (by simp)
  · simp only [he, if_neg, not_false_iff] at h
    obtain rfl : d = _ := (Option.some.inj h).symm
    exact he

theorem ParseDecls_mem_annotations_ne (dl : Decl) (pfx : Str) (d : AnnotatedDecl)
    (h : d ∈ ParseDecls dl pfx) : d.annotations ≠ [] := by
  cases dl with
  | gen g => exact ParseGenericDecl_mem_annotations_ne g pfx d h
  | bad => exact absurd h (by simp [ParseDecls])
  | func f =>
    rw [ParseDecls] at h
    cases hp : ParseFuncDecl f pfx with
    | none => rw [hp] at h; exact absurd h (by simp)
    | some item =>
      rw [hp] at h
      rw [List.mem_singleton.mp h]
      exact ParseFuncDecl_annotations_ne f pfx item hp

theorem parseFileDecls_mem_annotations_ne (ast : Ast) (pfx : Str) (d : AnnotatedDecl)
    (h : d ∈ parseFileDecls ast pfx) : d.annotations ≠ [] := by
  rw [parseFileDecls] at h
  obtain ⟨l, hl, hdl⟩ := List.mem_flatten.mp h
  obtain ⟨dl, _, hmap⟩ := List.mem_map.mp hl
  rw [← hmap] at hdl
  exact ParseDecls_mem_annotations_ne dl pfx d hdl

theorem ParseFileDecls_mem_annotations_ne (f : SrcFile) (pfx : Str)
    (ds : List AnnotatedDecl) (h : ParseFileDecls f pfx = .ok ds)
    (d : AnnotatedDecl) (hd : d ∈ ds) : d.annotations ≠ [] := by
  rw [ParseFileDecls] at h
  by_cases hgo : IsGoFile f.name
  · simp only [hgo, not_true_eq_false, if_neg, not_false_iff] at h
    cases hread : f.read with
    | error e => rw [hread] at h; exact absurd h (by simp)
    | ok data =>
      rw [hread] at h
      by_cases hin : pfx <:+: data
      · simp only [hin, not_true_eq_false, if_neg, not_false_iff] at h
        cases hast : f.ast with
        | error e => rw [hast] at h; exact absurd h (by simp)
        | ok ast =>
          rw [hast] at h
          obtain rfl : parseFileDecls ast pfx = ds := by
            exact Except.ok.inj h
          exact parseFileDecls_mem_annotations_ne ast pfx d hd
      · simp only [hin, not_false_iff, if_pos] at h
        obtain rfl : ([] : List AnnotatedDecl) = ds := Except.ok.inj h
        exact absurd hd (by simp)
  · simp only [hgo, not_false_iff, if_pos] at h
    obtain rfl : ([] : List AnnotatedDecl) = ds := Except.ok.inj h
    exact absurd hd (by simp)

theorem processFiles_mem_annotations_ne (pfx : Str) (l : List SrcFile)
    (ds : List AnnotatedDecl) (h : processFiles pfx l = .ok ds)
    (d : AnnotatedDecl) (hd : d ∈ ds) : d.annotations ≠ [] := by
  induction l generalizing ds with
  | nil =>
    obtain rfl : ([] : List AnnotatedDecl) = ds := Except.ok.inj h
    exact absurd hd (by simp)
  | cons f fs ih =>
    rw [processFiles] at h
    cases hf : ParseFileDecls f pfx with
    | error e =>
      rw [hf] at h
      exact absurd h (by simp [Bind.bind, Except.bind])
    | ok d1 =>
      rw [hf] at h
      cases hrest : processFiles pfx fs with
      | error e =>
        rw [hrest] at h
        exact absurd h (by simp [Bind.bind, Except.bind, pure, Except.pure])
      | ok d2 =>
        rw [hrest] at h
        obtain rfl : d1 ++ d2 = ds := by
          simpa [Bind.bind, Except.bind, pure, Except.pure] using h
        rcases List.mem_append.mp hd with h1 | h2
        · exact ParseFileDecls_mem_annotations_ne f pfx d1 hf d h1
        · exact ih d2 hrest h2

/-- C8: every annotated declaration produced by the extraction pipeline
(`ParseDecls`, `ParseFileDecls`, `ParseFileOrDirectory`) carries at least
one marker line after prefix filtering. -/
theorem extraction_pipeline_annotations_nonempty :
    (∀ (dl : Decl) (pfx : Str), ∀ d ∈ ParseDecls dl pfx, d.annotations ≠ []) ∧
    (∀ (f : SrcFile) (pfx : Str) (ds : List AnnotatedDecl),
      ParseFileDecls f pfx = .ok ds → ∀ d ∈ ds, d.annotations ≠ []) ∧
    (∀ (root : FSNode) (pfx : Str),
      ∀ d ∈ (ParseFileOrDirectory root pfx).1, d.annotations ≠ []) := by
  refine ⟨fun dl pfx d h => ParseDecls_mem_annotations_ne dl pfx d h,
    fun f pfx ds h d hd => ParseFileDecls_mem_annotations_ne f pfx ds h d hd,
    ?_⟩
  intro root pfx d hd
  cases root with
  | file f =>
    rw [ParseFileOrDirectory] at hd
    cases hf : ParseFileDecls f pfx with
    | error e => rw [hf] at hd; exact absurd hd (by simp)
    | ok ds =>
      rw [hf] at hd
      exact ParseFileDecls_mem_annotations_ne f pfx ds hf d hd
  | dir name children =>
    rw [ParseFileOrDirectory] at hd
    cases hw : walkNode pfx (.dir name children) with
    | error e => rw [hw] at hd; exact absurd hd (by simp)
    | ok ds =>
      rw [hw] at hd
      rw [walkNode_eq_processFiles] at hw
      exact processFiles_mem_annotations_ne pfx _ ds hw d hd

/-- Witness for C8: the single annotated function declaration extracted
from a concrete file has a nonempty marker-line list. -/
theorem extraction_pipeline_annotations_nonempty_witness :
    ∃ d, d ∈ (ParseFileOrDirectory
      (.file ⟨"a.go".data, .ok "// +zz:test".data,
        .ok ⟨"x".data, [Decl.func ⟨"F0".data, some "+zz:test".data⟩]⟩⟩)
      "+zz:".data).1 ∧ d.annotations ≠ [] := by
  have hmem : ({ type := DeclFunc,
                 funcDecl := some (⟨"F0".data, some "+zz:test".data⟩ : FuncDecl),
                 docs := [], annotations := ["test".data] } : AnnotatedDecl) ∈
      (ParseFileOrDirectory
        (.file ⟨"a.go".data, .ok "// +zz:test".data,
          .ok ⟨"x".data, [Decl.func ⟨"F0".data, some "+zz:test".data⟩]⟩⟩)
        "+zz:".data).1 := by decide
  exact ⟨_, hmem,
    extraction_pipeline_annotations_nonempty.2.2 _ "+zz:".data _ hmem⟩

/-! ## Claim C2 -/

/-- C2: in a grouped const/var or type declaration block, the group-level
marker lines are prepended to each member's own marker lines, for
every member that survives (combined annotations nonempty); group-level
doc lines are prepended only when the block is a single declaration (no
parens, or exactly one spec).  Soundness and completeness are stated for
both the value arm and the type arm of `ParseGenericDecl`. -/
theorem ParseGenericDecl_group_attribution (gen : GenDecl) (pfx : Str) :
    ((gen.tok = GenTok.const ∨ gen.tok = GenTok.var) →
      (∀ d ∈ ParseGenericDecl gen pfx, ∃ vs, Spec.value vs ∈ gen.specs ∧
        d.valueSpec = some vs ∧
        d.annotations = (ParseCommentGroup pfx [gen.doc]).2 ++
          (ParseCommentGroup pfx [vs.doc, vs.comment]).2 ∧
        d.docs = (if (!gen.lparenValid || gen.specs.length == 1) = true then
            (ParseCommentGroup pfx [gen.doc]).1 else []) ++
          (ParseCommentGroup pfx [vs.doc, vs.comment]).1) ∧
      (∀ vs, Spec.value vs ∈ gen.specs →
        (ParseCommentGroup pfx [gen.doc]).2 ++
          (ParseCommentGroup pfx [vs.doc, vs.comment]).2 ≠ [] →
        ∃ d ∈ ParseGenericDecl gen pfx, d.valueSpec = some vs ∧
          d.annotations = (ParseCommentGroup pfx [gen.doc]).2 ++
            (ParseCommentGroup pfx [vs.doc, vs.comment]).2 ∧
          d.docs = (if (!gen.lparenValid || gen.specs.length == 1) = true then
              (ParseCommentGroup pfx [gen.doc]).1 else []) ++
            (ParseCommentGroup pfx [vs.doc, vs.comment]).1)) ∧
    (gen.tok = GenTok.typ →
      (∀ d ∈ ParseGenericDecl gen pfx, ∃ ts, Spec.typeSpec ts ∈ gen.specs ∧
        d.typeSpec = some ts ∧
        d.annotations = (ParseCommentGroup pfx [gen.doc]).2 ++
          (ParseCommentGroup pfx [ts.doc, ts.comment]).2 ∧
        d.docs = (if (!gen.lparenValid || gen.specs.length == 1) = true then
            (ParseCommentGroup pfx [gen.doc]).1 else []) ++
          (ParseCommentGroup pfx [ts.doc, ts.comment]).1) ∧
      (∀ ts, Spec.typeSpec ts ∈ gen.specs → ts.typ ≠ TypeExpr.other →
        (ParseCommentGroup pfx [gen.doc]).2 ++
          (ParseCommentGroup pfx [ts.doc, ts.comment]).2 ≠ [] →
        ∃ d ∈ ParseGenericDecl gen pfx, d.typeSpec = some ts ∧
          d.annotations = (ParseCommentGroup pfx [gen.doc]).2 ++
            (ParseCommentGroup pfx [ts.doc, ts.comment]).2 ∧
          d.docs = (if (!gen.lparenValid || gen.specs.length == 1) = true then
              (ParseCommentGroup pfx [gen.doc]).1 else []) ++
            (ParseCommentGroup pfx [ts.doc, ts.comment]).1)) := by
  constructor
  · intro htok
    constructor
    · intro d hd
      simp only [ParseGenericDecl] at hd
      rcases htok with h | h <;> rw [h] at hd <;>
      · obtain ⟨s, hs, hsome⟩ := List.mem_filterMap.mp hd
        obtain ⟨vs, rfl, hne, hd'⟩ := (valueMember_some_iff _ _ _ _ s d).mp hsome
        exact ⟨vs, hs, by rw [hd'], by rw [hd'], by rw [hd']⟩
    · intro vs hmem hne
      refine ⟨{ type := DeclValue, valueSpec := some vs,
                docs := (if (!gen.lparenValid || gen.specs.length == 1) = true then
                    (ParseCommentGroup pfx [gen.doc]).1 else []) ++
                  (ParseCommentGroup pfx [vs.doc, vs.comment]).1,
                annotations := (ParseCommentGroup pfx [gen.doc]).2 ++
                  (ParseCommentGroup pfx [vs.doc, vs.comment]).2 }, ?_, rfl, rfl, rfl⟩
      simp only [ParseGenericDecl]
      rcases htok with h | h <;> rw [h] <;>
        exact List.mem_filterMap.mpr
          ⟨Spec.value vs, hmem,
            (valueMember_some_iff _ _ _ _ _ _).mpr ⟨vs, rfl, hne, rfl⟩⟩
  · intro htok
    constructor
    · intro d hd
      simp only [ParseGenericDecl] at hd
      rw [htok] at hd
      obtain ⟨s, hs, hsome⟩ := List.mem_filterMap.mp hd
      obtain ⟨ts, rfl, hne, h1, h2, h3⟩ := typeMember_some _ _ _ _ s d hsome
      exact ⟨ts, hs, h3, h1, h2⟩
    · intro ts hmem htne hne
      obtain ⟨d, hsome, h1, h2, h3⟩ := typeMember_complete pfx
        (ParseCommentGroup pfx [gen.doc]).1 (ParseCommentGroup pfx [gen.doc]).2
        (!gen.lparenValid || gen.specs.length == 1) ts htne hne
      refine ⟨d, ?_, h1, h2, h3⟩
      simp only [ParseGenericDecl]
      rw [htok]
      exact List.mem_filterMap.mpr ⟨Spec.typeSpec ts, hmem, hsome⟩

/-- Witness for C2: a parenthesised `var` group with one group-level
group marker line and two members.  Both appear, both carry the group
line prepended to their own lines, and neither inherits
group docs (the group has two members). -/
theorem ParseGenericDecl_group_attribution_witness :
    (∃ d ∈ ParseGenericDecl
        { doc := some "+zz:foo".data, tok := GenTok.var, lparenValid := true,
          specs := [Spec.value ⟨["V0".data], none, some "+zz:bar".data⟩,
                    Spec.value ⟨["V1".data], none, none⟩] } "+zz:".data,
      d.valueSpec = some ⟨["V0".data], none, some "+zz:bar".data⟩ ∧
        d.annotations = ["foo".data, "bar".data] ∧ d.docs = []) ∧
    (∃ d ∈ ParseGenericDecl
        { doc := some "+zz:foo".data, tok := GenTok.var, lparenValid := true,
          specs := [Spec.value ⟨["V0".data], none, some "+zz:bar".data⟩,
                    Spec.value ⟨["V1".data], none, none⟩] } "+zz:".data,
      d.valueSpec = some ⟨["V1".data], none, none⟩ ∧
        d.annotations = ["foo".data] ∧ d.docs = []) := by
  obtain ⟨hval, _⟩ := ParseGenericDecl_group_attribution
    { doc := some "+zz:foo".data, tok := GenTok.var, lparenValid := true,
      specs := [Spec.value ⟨["V0".data], none, some "+zz:bar".data⟩,
                Spec.value ⟨["V1".data], none, none⟩] } "+zz:".data
  obtain ⟨_, hcomp⟩ := hval (Or.inr rfl)
  constructor
  · obtain ⟨d, hd, h1, h2, h3⟩ := hcomp ⟨["V0".data], none, some "+zz:bar".data⟩
      (by decide) (by decide)
    exact ⟨d, hd, h1, h2.trans (by decide), h3.trans (by decide)⟩
  · obtain ⟨d, hd, h1, h2, h3⟩ := hcomp ⟨["V1".data], none, none⟩
      (by decide) (by decide)
    exact ⟨d, hd, h1, h2.trans (by decide), h3.trans (by decide)⟩

/-! ## Imports and FixPackage (module.go)

`Imports` with its `Add` and `Which` methods is declared in a file of the
repository that is not among the reviewed sources; it is modelled from the
spec here.  `FixPackage` itself is translated from module.go, with the Go
map mutation made explicit: the function returns the rewritten identifier
together with the (possibly extended) destination import list. -/

/-- Modelled from the spec: the import list of a file, as an association
list from local alias to import path (§4.3: aliases resolve to import
paths; addition deduplicates by import path). -/
abbrev Imports := List (Str × Str)

/-- Modelled from the spec: `Imports.Which` resolves a local alias to
its path, returning the empty string when the alias is absent (per §7,
resolution functions return an empty result rather than erroring, and per
the `len(pkgImportPath) == 0` test in `FixPackage`). -/
def Imports.Which (im : Imports) (a : Str) : Str :=
  (lookupKV im a).getD []

/-- `path.Base`: the last `/`-separated segment (`"."` for the empty
path). -/
def pathBase (p : Str) : Str :=
  if p = [] then ['.']
  else (splitOnSep '/' p).getLast (splitOnSep_ne_nil '/' p)

/-- Modelled from the spec: `importNameReplacer` maps characters that are
not valid in an identifier (`-`, `.`) to `_`. -/
def importNameReplacer (s : Str) : Str :=
  s.map (fun c => if c = '-' ∨ c = '.' then '_' else c)

/-- Candidate alias number `i` for base name `b`: the base itself first,
then `b2`, `b3`, …. -/
def aliasCandidate (b : Str) (i : Nat) : Str :=
  if i = 0 then b else b ++ (Nat.repr (i + 1)).data

/-- The first alias candidate not yet bound in the import list (among the
first `im.length + 1` candidates one is always free). -/
def freshAlias (im : Imports) (b : Str) : Str :=
  match (List.range (im.length + 1)).find?
      (fun i => (lookupKV im (aliasCandidate b i)).isNone) with
  | some i => aliasCandidate b i
  | none => aliasCandidate b (im.length + 1)

/-- Modelled from the spec: `Imports.Add` adds an import path and returns
the chosen local alias, deduplicating by import path and returning the
existing alias when the path is already present (§4.3/§4.4); a fresh
alias is the path's base name, with a numeric suffix on collision (the
repository's `TestModify` shows `host.com/time` gaining alias `time2`
next to the `time` import). -/
def Imports.Add (im : Imports) (p : Str) : Str × Imports :=
  match im.find? (fun e => e.2 == p) with
  | some e => (e.1, im)
  | none =>
    let a := freshAlias im (importNameReplacer (pathBase p))
    (a, im ++ [(a, p)])

/-- `token.IsExported`: the first character is upper-case (ASCII; Go also
accepts Unicode title-case letters, which no claim involves). -/
def isExported (name : Str) : Bool :=
  match name with
  | [] => false
  | c :: _ => c.isUpper

/-- Source: `FixPackage` without the pointer-marker handling, on the
already-trimmed identifier. -/
def FixPackageCore (name srcImportPath dstImportPath : Str)
    (srcImports dstImports : Imports) : Str × Imports :=
  match splitOnSep '.' name with
  | [] => (name, dstImports)
  | [_] =>
    if isExported name ∧ srcImportPath ≠ dstImportPath then
      let r := dstImports.Add srcImportPath
      (r.1 ++ '.' :: name, r.2)
    else (name, dstImports)
  | s0 :: s1 :: _ =>
    let pkgImportPath := srcImports.Which s0
    if pkgImportPath = dstImportPath then (s1, dstImports)
    else if pkgImportPath = [] then (name, dstImports)
    else
      let r := dstImports.Add pkgImportPath
      (r.1 ++ '.' :: s1, r.2)

/-- Source: `FixPackage`: strip an optional `*` marker, rewrite the
identifier, and re-attach the marker; the returned import list reflects
the in-place mutation of `dstImports` performed by `Imports.Add`. -/
def FixPackage (name srcImportPath dstImportPath : Str)
    (srcImports dstImports : Imports) : Str × Imports :=
  let t := TrimPrefix name ['*']
  let ptr := if t.2 then ['*'] else ([] : Str)
  let r := FixPackageCore t.1 srcImportPath dstImportPath srcImports dstImports
  (ptr ++ r.1, r.2)

/-! ## Claim C5 -/

theorem trimPrefix_star_of_head_ne (nm : Str) (h : nm.head? ≠ some '*') :
    TrimPrefix nm ['*'] = (nm, false) := by
  cases nm with
  | nil => rfl
  | cons c t =>
    have hc : ('*' == c) = false := by
      rw [beq_eq_false_iff_ne]
      intro e
      exact h (by rw [List.head?_cons, ← e])
    simp [TrimPrefix, List.isPrefixOf, hc]

theorem trimPrefix_star_cons (nm : Str) : TrimPrefix ('*' :: nm) ['*'] = (nm, true) := by
  simp [TrimPrefix, List.isPrefixOf]

theorem FixPackage_eq_core (ptr : Bool) (nm srcIP dstIP : Str)
    (si di : Imports) (h : nm.head? ≠ some '*') :
    FixPackage (if ptr then '*' :: nm else nm) srcIP dstIP si di =
      ((if ptr then ['*'] else []) ++ (FixPackageCore nm srcIP dstIP si di).1,
        (FixPackageCore nm srcIP dstIP si di).2) := by
  cases ptr
  · simp [FixPackage, trimPrefix_star_of_head_ne nm h]
  · simp [FixPackage, trimPrefix_star_cons nm]

theorem Imports.Add_of_mem (im : Imports) (p : Str) (h : ∃ a, (a, p) ∈ im) :
    (Imports.Add im p).2 = im ∧ ((Imports.Add im p).1, p) ∈ im := by
  have hs : (im.find? (fun e => e.2 == p)).isSome := by
    rw [List.find?_isSome]
    obtain ⟨a, ha⟩ := h
    exact ⟨(a, p), ha, by simp⟩
  obtain ⟨q, hq⟩ := Option.isSome_iff_exists.mp hs
  have hqp : q.2 = p := by
    have := List.find?_some hq
    simpa using this
  have hqm : q ∈ im := List.mem_of_find?_eq_some hq
  rw [Imports.Add, hq]
  exact ⟨rfl, by rw [← hqp]; exact hqm⟩

/-- C5, amended (an unresolvable alias passes through unchanged only when
the destination import path is nonempty; with an empty destination path
the empty `Which` result equals it and the qualifier is dropped):
`FixPackage` rewrites an unqualified exported identifier to
`alias.Name` via `Imports.Add` when the source and destination import
paths differ (reusing an existing alias when the path is already
present); leaves an unexported unqualified identifier, or an identifier
with equal source and destination paths, unchanged; drops the qualifier
of an alias-qualified identifier whose alias resolves to the destination
path; re-qualifies via the destination imports when it resolves to a
different nonempty path; leaves it unchanged when the alias is not found
and the destination path is nonempty; and preserves the pointer marker
throughout. -/
theorem FixPackage_cases (ptr : Bool) (nm srcIP dstIP : Str)
    (srcImports dstImports : Imports) (hstar : nm.head? ≠ some '*') :
    (('.' ∉ nm) → isExported nm = true → srcIP ≠ dstIP →
      FixPackage (if ptr then '*' :: nm else nm) srcIP dstIP srcImports dstImports =
        ((if ptr then ['*'] else []) ++ ((dstImports.Add srcIP).1 ++ '.' :: nm),
          (dstImports.Add srcIP).2)) ∧
    (('.' ∉ nm) → (isExported nm = false ∨ srcIP = dstIP) →
      FixPackage (if ptr then '*' :: nm else nm) srcIP dstIP srcImports dstImports =
        ((if ptr then ['*'] else []) ++ nm, dstImports)) ∧
    (∀ s0 s1 r, splitOnSep '.' nm = s0 :: s1 :: r →
      Imports.Which srcImports s0 = dstIP →
      FixPackage (if ptr then '*' :: nm else nm) srcIP dstIP srcImports dstImports =
        ((if ptr then ['*'] else []) ++ s1, dstImports)) ∧
    (∀ s0 s1 r, splitOnSep '.' nm = s0 :: s1 :: r →
      lookupKV srcImports s0 = none → dstIP ≠ [] →
      FixPackage (if ptr then '*' :: nm else nm) srcIP dstIP srcImports dstImports =
        ((if ptr then ['*'] else []) ++ nm, dstImports)) ∧
    (∀ s0 s1 r, splitOnSep '.' nm = s0 :: s1 :: r →
      Imports.Which srcImports s0 ≠ dstIP → Imports.Which srcImports s0 ≠ [] →
      FixPackage (if ptr then '*' :: nm else nm) srcIP dstIP srcImports dstImports =
        ((if ptr then ['*'] else []) ++
          ((dstImports.Add (Imports.Which srcImports s0)).1 ++ '.' :: s1),
          (dstImports.Add (Imports.Which srcImports s0)).2)) ∧
    ((∃ a, (a, srcIP) ∈ dstImports) →
      (dstImports.Add srcIP).2 = dstImports ∧
        ((dstImports.Add srcIP).1, srcIP) ∈ dstImports) := by
  refine ⟨?_, ?_, ?_, ?_, ?_, Imports.Add_of_mem dstImports srcIP⟩
  · intro hdot hexp hne
    have hcore : FixPackageCore nm srcIP dstIP srcImports dstImports =
        ((dstImports.Add srcIP).1 ++ '.' :: nm, (dstImports.Add srcIP).2) := by
      rw [FixPackageCore, splitOnSep_of_not_mem '.' nm hdot]
      exact if_pos ⟨hexp, hne⟩
    rw [FixPackage_eq_core ptr nm srcIP dstIP srcImports dstImports hstar, hcore]
  · intro hdot hor
    have hcore : FixPackageCore nm srcIP dstIP srcImports dstImports =
        (nm, dstImports) := by
      rw [FixPackageCore, splitOnSep_of_not_mem '.' nm hdot]
      rcases hor with hexp | heq
      · exact if_neg (fun hc => by rw [hexp] at hc; exact absurd hc.1 (by simp))
      · exact if_neg (fun hc => hc.2 heq)
    rw [FixPackage_eq_core ptr nm srcIP dstIP srcImports dstImports hstar, hcore]
  · intro s0 s1 r hsp hwhich
    have hcore : FixPackageCore nm srcIP dstIP srcImports dstImports =
        (s1, dstImports) := by
      rw [FixPackageCore, hsp]
      show (if Imports.Which srcImports s0 = dstIP then (s1, dstImports)
        else if Imports.Which srcImports s0 = [] then (nm, dstImports)
        else ((dstImports.Add (Imports.Which srcImports s0)).1 ++ '.' :: s1,
          (dstImports.Add (Imports.Which srcImports s0)).2)) = (s1, dstImports)
      rw [if_pos hwhich]
    rw [FixPackage_eq_core ptr nm srcIP dstIP srcImports dstImports hstar, hcore]
  · intro s0 s1 r hsp hlk hdst
    have hwhich : Imports.Which srcImports s0 = [] := by
      rw [Imports.Which, hlk]
      rfl
    have hcore : FixPackageCore nm srcIP dstIP srcImports dstImports =
        (nm, dstImports) := by
      rw [FixPackageCore, hsp]
      show (if Imports.Which srcImports s0 = dstIP then (s1, dstImports)
        else if Imports.Which srcImports s0 = [] then (nm, dstImports)
        else ((dstImports.Add (Imports.Which srcImports s0)).1 ++ '.' :: s1,
          (dstImports.Add (Imports.Which srcImports s0)).2)) = (nm, dstImports)
      rw [if_neg (fun hc => hdst (hc.symm.trans hwhich)), if_pos hwhich]
    rw [FixPackage_eq_core ptr nm srcIP dstIP srcImports dstImports hstar, hcore]
  · intro s0 s1 r hsp hne hnil
    have hcore : FixPackageCore nm srcIP dstIP srcImports dstImports =
        ((dstImports.Add (Imports.Which srcImports s0)).1 ++ '.' :: s1,
          (dstImports.Add (Imports.Which srcImports s0)).2) := by
      rw [FixPackageCore, hsp]
      show (if Imports.Which srcImports s0 = dstIP then (s1, dstImports)
        else if Imports.Which srcImports s0 = [] then (nm, dstImports)
        else ((dstImports.Add (Imports.Which srcImports s0)).1 ++ '.' :: s1,
          (dstImports.Add (Imports.Which srcImports s0)).2)) =
        ((dstImports.Add (Imports.Which srcImports s0)).1 ++ '.' :: s1,
          (dstImports.Add (Imports.Which srcImports s0)).2)
      rw [if_neg hne, if_neg hnil]
    rw [FixPackage_eq_core ptr nm srcIP dstIP srcImports dstImports hstar, hcore]

/-- C5 counterexample: the claim as stated says a qualified identifier
whose alias is not found in the source imports passes through unchanged;
with an empty destination import path the code instead drops the
qualifier: `p.X` becomes `X`. -/
theorem FixPackage_claimed_counterexample :
    FixPackage "p.X".data "src/a".data [] [] [] = ("X".data, []) ∧
      "X".data ≠ "p.X".data := by
  constructor
  · decide
  · decide

/-- Witness for C5: `*Name` from package `pkg/x` referenced from package
`pkg/y` is rewritten to `*x.Name`, adding `pkg/x` under alias `x`; adding
the same path again reuses the alias without growing the import list. -/
theorem FixPackage_cases_witness :
    FixPackage "*Name".data "pkg/x".data "pkg/y".data [] [] =
      ("*x.Name".data, [("x".data, "pkg/x".data)]) ∧
    (Imports.Add [("x".data, "pkg/x".data)] "pkg/x".data).2 =
      [("x".data, "pkg/x".data)] ∧
    ((Imports.Add [("x".data, "pkg/x".data)] "pkg/x".data).1, "pkg/x".data) ∈
      [("x".data, "pkg/x".data)] := by
  obtain ⟨ha, _, _, _, _, hg⟩ := FixPackage_cases true "Name".data "pkg/x".data
    "pkg/y".data [] [("x".data, "pkg/x".data)] (by decide)
  refine ⟨?_, ?_, ?_⟩
  · have h1 := (FixPackage_cases true "Name".data "pkg/x".data "pkg/y".data
      [] [] (by decide)).1 (by decide) (by decide) (by decide)
    exact h1.trans (by decide)
  · exact (hg ⟨"x".data, by decide⟩).1
  · exact (hg ⟨"x".data, by decide⟩).2

/-! ## The persisted cache (module.go)

`InitCacheStore` and `FlushCacheStore` move data between five process-wide
`sync.Map` stores and a single JSON object mapping cache-name to a
key-to-string-value map.  The JSON encoding itself is external
(`encoding/json`); the file is modelled as the already-decoded map of
maps.  Each store is an association list with the map semantics of
`lookupKV`; `mm[key]` iteration order in the Go code touches distinct
keys only, so it cannot affect the result. -/

/-- The decoded cache file: cache-name to key-to-value map. -/
abbrev CacheFile := List (Str × List (Str × Str))

/-- The five process-wide caches of module.go, by their `cacheKey` name. -/
structure CacheStores where
  importName : List (Str × Str)
  importPath : List (Str × Str)
  importPackageName : List (Str × Str)
  importPackageDir : List (Str × Str)
  modFile : List (Str × Str)
deriving DecidableEq

/-- The five persisted cache names, the values of `cacheKey`. -/
def cacheNames : List Str :=
  ["importName".data, "importPath".data, "importPackageName".data,
   "importPackageDir".data, "modFile".data]

/-- Lookup of a cache-name in the decoded file. -/
def lookupFile (file : CacheFile) (k : Str) : Option (List (Str × Str)) :=
  (file.find? (fun p => p.1 == k)).map (fun p => p.2)

/-- `store.Store(k, vv)` for every entry of a decoded map. -/
def storeAll (store : List (Str × Str)) (entries : List (Str × Str)) :
    List (Str × Str) :=
  entries.foldl (fun st p => mapSet st p.1 p.2) store

/-- The per-store part of `InitCacheStore`: entries of the file's map for
this cache-name are stored (overwriting), a missing name is skipped. -/
def initStore (file : CacheFile) (name : Str) (store : List (Str × Str)) :
    List (Str × Str) :=
  match lookupFile file name with
  | some v => storeAll store v
  | none => store

/-- Source: `InitCacheStore` on an already-decoded file (a file that fails
`json.Unmarshal` leaves every store untouched, which is the `none` case of
every lookup). -/
def InitCacheStore (file : CacheFile) (s : CacheStores) : CacheStores :=
  { importName := initStore file "importName".data s.importName,
    importPath := initStore file "importPath".data s.importPath,
    importPackageName := initStore file "importPackageName".data s.importPackageName,
    importPackageDir := initStore file "importPackageDir".data s.importPackageDir,
    modFile := initStore file "modFile".data s.modFile }

/-- Source: `FlushCacheStore`: the written file holds exactly the five
known cache-names, each with its store's full contents. -/
def FlushCacheStore (s : CacheStores) : CacheFile :=
  [("importName".data, s.importName), ("importPath".data, s.importPath),
   ("importPackageName".data, s.importPackageName),
   ("importPackageDir".data, s.importPackageDir),
   ("modFile".data, s.modFile)]

/-- The empty stores at process start. -/
def emptyCacheStores : CacheStores :=
  { importName := [], importPath := [], importPackageName := [],
    importPackageDir := [], modFile := [] }

/-! ## Claim C3 -/

theorem lookupKV_eq_some_mem (m : List (Str × Str)) (k v : Str)
    (h : lookupKV m k = some v) : k ∈ m.map Prod.fst := by
  induction m with
  | nil => exact absurd h (by simp [lookupKV])
  | cons p rest ih =>
    obtain ⟨kp, vp⟩ := p
    rw [lookupKV_cons] at h
    by_cases hq : kp = k
    · simp [hq]
    · rw [if_neg hq] at h
      simp only [List.map_cons, List.mem_cons]
      exact Or.inr (ih h)

theorem lookupKV_storeAll (acc entries : List (Str × Str)) (k : Str)
    (hnd : (entries.map Prod.fst).Nodup) :
    lookupKV (storeAll acc entries) k =
      match lookupKV entries k with
      | some v => some v
      | none => lookupKV acc k := by
  induction entries generalizing acc with
  | nil => rfl
  | cons p rest ih =>
    obtain ⟨k', v'⟩ := p
    rw [List.map_cons, List.nodup_cons] at hnd
    have hstep : storeAll acc ((k', v') :: rest) = storeAll (mapSet acc k' v') rest := rfl
    rw [hstep, ih _ hnd.2, lookupKV_cons]
    by_cases hk : k' = k
    · subst hk
      have hrest : lookupKV rest k' = none := by
        cases hr : lookupKV rest k' with
        | none => rfl
        | some w => exact absurd (lookupKV_eq_some_mem rest k' w hr) hnd.1
      rw [hrest, if_pos rfl, lookupKV_mapSet_self]
    · rw [if_neg hk, lookupKV_mapSet_ne _ _ _ _ hk]

/-- C3, amended (an unknown cache-name in the file is ignored on load and
therefore lost by the next flush, not preserved): the persisted cache
file maps cache-name to key-to-value map; `FlushCacheStore` followed by
`InitCacheStore` into fresh stores restores every flushed entry of every
cache; a flushed file holds exactly the five known cache-names; and a
name absent from the file restores nothing. -/
theorem cache_flush_init_roundtrip (s : CacheStores)
    (h1 : (s.importName.map Prod.fst).Nodup)
    (h2 : (s.importPath.map Prod.fst).Nodup)
    (h3 : (s.importPackageName.map Prod.fst).Nodup)
    (h4 : (s.importPackageDir.map Prod.fst).Nodup)
    (h5 : (s.modFile.map Prod.fst).Nodup) :
    (∀ k, lookupKV (InitCacheStore (FlushCacheStore s) emptyCacheStores).importName k =
        lookupKV s.importName k ∧
      lookupKV (InitCacheStore (FlushCacheStore s) emptyCacheStores).importPath k =
        lookupKV s.importPath k ∧
      lookupKV (InitCacheStore (FlushCacheStore s) emptyCacheStores).importPackageName k =
        lookupKV s.importPackageName k ∧
      lookupKV (InitCacheStore (FlushCacheStore s) emptyCacheStores).importPackageDir k =
        lookupKV s.importPackageDir k ∧
      lookupKV (InitCacheStore (FlushCacheStore s) emptyCacheStores).modFile k =
        lookupKV s.modFile k) ∧
    (FlushCacheStore s).map Prod.fst = cacheNames := by
  constructor
  · intro k
    have e1 : (InitCacheStore (FlushCacheStore s) emptyCacheStores).importName =
        storeAll [] s.importName := rfl
    have e2 : (InitCacheStore (FlushCacheStore s) emptyCacheStores).importPath =
        storeAll [] s.importPath := rfl
    have e3 : (InitCacheStore (FlushCacheStore s) emptyCacheStores).importPackageName =
        storeAll [] s.importPackageName := rfl
    have e4 : (InitCacheStore (FlushCacheStore s) emptyCacheStores).importPackageDir =
        storeAll [] s.importPackageDir := rfl
    have e5 : (InitCacheStore (FlushCacheStore s) emptyCacheStores).modFile =
        storeAll [] s.modFile := rfl
    refine ⟨?_, ?_, ?_, ?_, ?_⟩
    · rw [e1, lookupKV_storeAll _ _ _ h1]
      cases lookupKV s.importName k <;> rfl
    · rw [e2, lookupKV_storeAll _ _ _ h2]
      cases lookupKV s.importPath k <;> rfl
    · rw [e3, lookupKV_storeAll _ _ _ h3]
      cases lookupKV s.importPackageName k <;> rfl
    · rw [e4, lookupKV_storeAll _ _ _ h4]
      cases lookupKV s.importPackageDir k <;> rfl
    · rw [e5, lookupKV_storeAll _ _ _ h5]
      cases lookupKV s.modFile k <;> rfl
  · rfl

/-- C3 counterexample: a cache-name unknown to the current version
(`future`) is present in the loaded file but absent from the file written
by the following flush — it is not preserved across the load-then-flush
round trip the claim describes. -/
theorem cache_unknown_name_dropped :
    lookupFile [("future".data, [("k".data, "v".data)])] "future".data =
      some [("k".data, "v".data)] ∧
    lookupFile
      (FlushCacheStore
        (InitCacheStore [("future".data, [("k".data, "v".data)])] emptyCacheStores))
      "future".data = none := by
  constructor
  · decide
  · decide

/-- Witness for C3 at concrete stores holding one entry each. -/
theorem cache_flush_init_roundtrip_witness :
    lookupKV (InitCacheStore
        (FlushCacheStore
          { importName := [("a".data, "1".data)], importPath := [("b".data, "2".data)],
            importPackageName := [], importPackageDir := [], modFile := [] })
        emptyCacheStores).importName "a".data = some "1".data ∧
    lookupKV (InitCacheStore
        (FlushCacheStore
          { importName := [("a".data, "1".data)], importPath := [("b".data, "2".data)],
            importPackageName := [], importPackageDir := [], modFile := [] })
        emptyCacheStores).importPath "b".data = some "2".data := by
  have h := (cache_flush_init_roundtrip
    { importName := [("a".data, "1".data)], importPath := [("b".data, "2".data)],
      importPackageName := [], importPackageDir := [], modFile := [] }
    (by decide) (by decide) (by decide) (by decide) (by decide)).1
  exact ⟨((h "a".data).1).trans (by decide), ((h "b".data).2.1).trans (by decide)⟩

end ZCore
